import Mathlib

/-!
Verification of the MPIE Gradio dashboard (`app.py`).

The file shallowly embeds the glue code of the repository: the stdout
parser `parse`, the subprocess wrapper `run_agent`, the chart builder
`bar_chart`, the PDF writer `pdf_from_text` (including a model of
Python's `textwrap.wrap`), the top-level `analyze` callback, the launch
port selection, and the cached artifact fetch.  Python strings are
modelled as `List Char`; Python exceptions as `Except`; the filesystem
touched by the PDF writer as an explicit state record.  Python `float`
values are modelled with exact rational decimal semantics; non-ASCII
decimal digits and non-ASCII letters are not modelled (the character
classes used by the regexes are ASCII plus the Unicode whitespace set
and the two non-ASCII characters the output format uses).
-/

namespace App

/-- The single-quote character (U+0027). -/
def squote : Char := Char.ofNat 39

/-- The backslash character. -/
def bslash : Char := Char.ofNat 92

/-- Python `str.isspace` / regex `\s`: ASCII whitespace, the four
information separators, and the Unicode space characters. -/
def pyIsSpace (c : Char) : Bool :=
  c = ' ' || c = '\t' || c = '\n' || c = '\x0b' || c = '\x0c' || c = '\r' ||
  c = '\x1c' || c = '\x1d' || c = '\x1e' || c = '\x1f' ||
  c = '\x85' || c = '\xa0' || c = ' ' ||
  (0x2000 ≤ c.toNat && c.toNat ≤ 0x200a) ||
  c = ' ' || c = ' ' || c = ' ' || c = ' ' || c = '　'

/-- Regex `\d` restricted to ASCII decimal digits. -/
def pyIsDigit (c : Char) : Bool := '0' ≤ c && c ≤ '9'

/-- Line boundaries recognised by Python `str.splitlines`. -/
def pyIsLineBreak (c : Char) : Bool :=
  c = '\n' || c = '\r' || c = '\x0b' || c = '\x0c' ||
  c = '\x1c' || c = '\x1d' || c = '\x1e' || c = '\x85' ||
  c = ' ' || c = ' '

/-- Python `str.strip()`: drop leading and trailing whitespace. -/
def pyStrip (s : List Char) : List Char :=
  (s.dropWhile pyIsSpace).reverse.dropWhile pyIsSpace |>.reverse

/-- Worker for `pySplitlines`: `cur` is the reversed current line and
`afterCR` records that the previous character was a `\r` boundary, so
that a following `\n` is part of the same `\r\n` boundary. -/
def pySplitlinesAux : Bool → List Char → List Char → List (List Char)
  | _, cur, [] => if cur.isEmpty then [] else [cur.reverse]
  | afterCR, cur, c :: r =>
    if c = '\n' && afterCR then pySplitlinesAux false cur r
    else if pyIsLineBreak c then cur.reverse :: pySplitlinesAux (c = '\r') [] r
    else pySplitlinesAux false (c :: cur) r

/-- Python `str.splitlines()`: split at line boundaries, treating
`\r\n` as a single boundary; no trailing empty line. -/
def pySplitlines (s : List Char) : List (List Char) :=
  pySplitlinesAux false [] s

/-- Leftmost split of `s` at pattern `pat`: returns the part before the
first occurrence and the part after it. -/
def splitOnFirst (pat : List Char) : List Char → Option (List Char × List Char)
  | [] => if pat.isEmpty then some ([], []) else none
  | c :: rest =>
    if pat.isPrefixOf (c :: rest) then some ([], (c :: rest).drop pat.length)
    else (splitOnFirst pat rest).map (fun p => (c :: p.1, p.2))

/-- Index of the leftmost occurrence of `pat` in `s`. -/
def firstOccIdx (pat : List Char) : List Char → Option Nat
  | [] => if pat.isEmpty then some 0 else none
  | c :: rest =>
    if pat.isPrefixOf (c :: rest) then some 0
    else (firstOccIdx pat rest).map (· + 1)

/-- `pat` occurs somewhere (contiguously) in `s`. -/
def containsSub (pat s : List Char) : Bool :=
  (firstOccIdx pat s).isSome

/-- Index of the last occurrence of character `c` in `s`. -/
def lastIdxOf (c : Char) : List Char → Option Nat
  | [] => none
  | x :: r =>
    match lastIdxOf c r with
    | some j => some (j + 1)
    | none => if x = c then some 0 else none

/-- Value of a string of ASCII decimal digits (`int` on a digit string;
the empty list gives 0). -/
def natFromDigits (ds : List Char) : Nat :=
  ds.foldl (fun a c => 10 * a + (c.toNat - 48)) 0

/-! ### Model of `json.loads`, restricted to the shape the reward line
uses: a flat object with string keys and number or string values.
Strings may not contain backslash escapes or raw control characters
(both are outside the documented reward format). -/

/-- A JSON value as produced by `json.loads` on the reward dict:
a number (exact decimal semantics) or a string. -/
inductive JValue
  | num (q : ℚ)
  | str (s : String)
deriving DecidableEq, Repr

/-- JSON insignificant whitespace characters. -/
def jsonIsWs (c : Char) : Bool :=
  c = ' ' || c = '\t' || c = '\n' || c = '\r'

/-- Skip JSON insignificant whitespace. -/
def jsonSkipWs (s : List Char) : List Char :=
  s.dropWhile jsonIsWs

/-- Scan the body of a JSON string after the opening quote; no escape
sequences, no raw control characters. -/
def jsonStrChars : List Char → Option (List Char × List Char)
  | [] => none
  | c :: r =>
    if c = '"' then some ([], r)
    else if c = bslash || c.toNat < 0x20 then none
    else (jsonStrChars r).map (fun p => (c :: p.1, p.2))

/-- Apply a JSON number's leading minus sign. -/
def applySign (neg : Bool) (q : ℚ) : ℚ := if neg then -q else q

/-- The exact rational `(i + f / 10^k) : ℚ`, written with `mkRat` so
that it evaluates by kernel reduction. -/
def decValue (i f k : Nat) : ℚ :=
  mkRat (i * 10 ^ k + f) (10 ^ k)

/-- The exact rational `v * 10^e` or `v / 10^e`. -/
def scaleExp (eneg : Bool) (v : ℚ) (e : Nat) : ℚ :=
  if eneg then mkRat v.num (v.den * 10 ^ e) else mkRat (v.num * 10 ^ e) v.den

/-- Optional fraction of a JSON number: a dot not followed by digits
ends the number before it. -/
def jsonNumFrac (i : Nat) (s : List Char) : ℚ × List Char :=
  match s with
  | '.' :: r =>
    if (r.takeWhile pyIsDigit).length = 0 then ((i : ℚ), '.' :: r)
    else (decValue i (natFromDigits (r.takeWhile pyIsDigit)) (r.takeWhile pyIsDigit).length,
      r.drop (r.takeWhile pyIsDigit).length)
  | _ => ((i : ℚ), s)

/-- Exponent scanning after the `e`/`E` marker: `r` is the tail after
the marker, `s2` the list including it (kept when no digits follow). -/
def jsonNumExpCore (neg : Bool) (v : ℚ) (s2 r : List Char) : Option (ℚ × List Char) :=
  let sgn : Bool × List Char :=
    match r with
    | '+' :: rr => (false, rr)
    | '-' :: rr => (true, rr)
    | _ => (false, r)
  if (sgn.2.takeWhile pyIsDigit).length = 0 then some (applySign neg v, s2)
  else
    some (applySign neg (scaleExp sgn.1 v (natFromDigits (sgn.2.takeWhile pyIsDigit))),
      sgn.2.drop (sgn.2.takeWhile pyIsDigit).length)

/-- Optional exponent of a JSON number. -/
def jsonNumExp (neg : Bool) (v : ℚ) : List Char → Option (ℚ × List Char)
  | 'e' :: r => jsonNumExpCore neg v ('e' :: r) r
  | 'E' :: r => jsonNumExpCore neg v ('E' :: r) r
  | s2 => some (applySign neg v, s2)

/-- Fraction and exponent tail of a JSON number (both optional). -/
def jsonNumTail (neg : Bool) (i : Nat) (s : List Char) : Option (ℚ × List Char) :=
  jsonNumExp neg (jsonNumFrac i s).1 (jsonNumFrac i s).2

/-- Scan the unsigned part of a JSON number: `0` or a nonzero-led
digit run, then the optional fraction and exponent. -/
def jsonNumberUnsigned (neg : Bool) : List Char → Option (ℚ × List Char)
  | [] => none
  | c :: r =>
    if c = '0' then jsonNumTail neg 0 r
    else if '1' ≤ c && c ≤ '9' then
      jsonNumTail neg (natFromDigits ((c :: r).takeWhile pyIsDigit))
        ((c :: r).drop ((c :: r).takeWhile pyIsDigit).length)
    else none

/-- Scan a JSON number (the `NUMBER_RE` grammar of Python's json
module): optional minus, `0` or a nonzero-led digit run, optional
fraction, optional exponent. -/
def jsonNumber : List Char → Option (ℚ × List Char)
  | '-' :: s1 => jsonNumberUnsigned true s1
  | s0 => jsonNumberUnsigned false s0

/-- Scan one JSON value: a string or a number. -/
def jsonValue (s : List Char) : Option (JValue × List Char) :=
  match s with
  | '"' :: r => (jsonStrChars r).map (fun p => (JValue.str (String.mk p.1), p.2))
  | _ => (jsonNumber s).map (fun p => (JValue.num p.1, p.2))

/-- Python `dict` insertion: an existing key keeps its position and is
updated; a new key is appended. -/
def insertUpdate (l : List (String × JValue)) (k : String) (v : JValue) :
    List (String × JValue) :=
  match l with
  | [] => [(k, v)]
  | (k0, v0) :: rest =>
    if k0 = k then (k0, v) :: rest else (k0, v0) :: insertUpdate rest k v

/-- Members of a JSON object after the opening brace, with fuel. -/
def jsonMembersAux : Nat → List (String × JValue) → List Char →
    Option (List (String × JValue) × List Char)
  | 0, _, _ => none
  | fuel + 1, acc, s =>
    match jsonSkipWs s with
    | '"' :: r =>
      match jsonStrChars r with
      | none => none
      | some (k, r2) =>
        match jsonSkipWs r2 with
        | ':' :: r3 =>
          match jsonValue (jsonSkipWs r3) with
          | none => none
          | some (v, r4) =>
            let acc2 := insertUpdate acc (String.mk k) v
            match jsonSkipWs r4 with
            | ',' :: r5 => jsonMembersAux fuel acc2 r5
            | '}' :: r5 => some (acc2, r5)
            | _ => none
        | _ => none
    | _ => none

/-- `json.loads` on a flat object; the whole input must be consumed. -/
def jsonLoadsObj (s : List Char) : Option (List (String × JValue)) :=
  match jsonSkipWs s with
  | '{' :: r =>
    match jsonSkipWs r with
    | '}' :: r2 => if (jsonSkipWs r2).isEmpty then some [] else none
    | _ =>
      match jsonMembersAux (r.length + 1) [] r with
      | some (m, rest) => if (jsonSkipWs rest).isEmpty then some m else none
      | none => none
  | _ => none

/-! ### The stdout parser `parse` of `app.py` -/

/-- Python exception classes raised by `run_agent` and `parse`:
`RuntimeError` (non-zero exit), `AttributeError` (`.group` on a failed
regex match), `json.JSONDecodeError`, and `ValueError` (`float` on a
malformed literal). -/
inductive PErr
  | runtime
  | attr
  | json
  | value
deriving DecidableEq, Repr

/-- The literal of the first pattern, `Best column:`. -/
def bestLit : List Char := String.toList "Best column:"

/-- The literal of the second pattern, `Reward break-down:`. -/
def rewardLit : List Char := String.toList "Reward break-down:"

/-- The literal of the third pattern, `Top relations:`. -/
def topLit : List Char := String.toList "Top relations:"

/-- The blank-line terminator of the relations block. -/
def nnLit : List Char := ['\n', '\n']

/-- `re.search(r"Best column:\s*(.*)", stdout).group(1).strip()`:
leftmost occurrence of the literal, greedy whitespace, the rest of the
line, stripped. -/
def bestStage (s : List Char) : Option (List Char) :=
  (splitOnFirst bestLit s).map
    (fun p => pyStrip ((p.2.dropWhile pyIsSpace).takeWhile (fun c => c ≠ '\n')))

/-- One attempt of the reward regex at the current position: the
literal must start here, the maximal whitespace run after it must be
followed by `{`, and the brace group extends to the last `}` on that
line (which must not be the opening brace itself). -/
def rewardTry (s : List Char) : Option (List Char) :=
  if rewardLit.isPrefixOf s then
    let r := (s.drop rewardLit.length).dropWhile pyIsSpace
    match r with
    | '{' :: _ =>
      let seg := r.takeWhile (fun x => x ≠ '\n')
      match lastIdxOf '}' seg with
      | some j => if 1 ≤ j then some (seg.take (j + 1)) else none
      | none => none
    | _ => none
  else none

/-- `re.search(r"Reward break-down:\s*({.*})", stdout).group(1)`:
try every start position left to right. -/
def rewardSearch : List Char → Option (List Char)
  | [] => none
  | c :: rest =>
    match rewardTry (c :: rest) with
    | some g => some g
    | none => rewardSearch rest

/-- The reward stage of `parse`: regex search, `'` → `"` replacement,
`json.loads`. -/
def rewardStage (s : List Char) : Except PErr (List (String × JValue)) :=
  match rewardSearch s with
  | none => .error .attr
  | some g =>
    match jsonLoadsObj (g.map (fun c => if c = squote then '"' else c)) with
    | none => .error .json
    | some m => .ok m

/-- `re.search(r"Top relations:\s*([\s\S]*?)\n\n", stdout).group(1)`:
after the leftmost literal occurrence, greedy whitespace backtracks so
that the lazy group ends at the first blank line. -/
def topSearch (s : List Char) : Option (List Char) :=
  match splitOnFirst topLit s with
  | none => none
  | some p =>
    let rest := p.2
    let n := (rest.takeWhile pyIsSpace).length
    let afterWs := rest.drop n
    match firstOccIdx nnLit afterWs with
    | some q => some (afterWs.take q)
    | none => if containsSub nnLit (rest.take n) then some [] else none

/-- The four capture groups of the relation-line regex
`(.*?)→(.*?)\s*deg=(\d+)\s*R²=([\d.]+)`. -/
structure RelGroups where
  src : List Char
  dst : List Char
  degS : List Char
  r2S : List Char
deriving DecidableEq, Repr

/-- Match `\s*deg=(\d+)\s*R²=([\d.]+)` at the start of `s`; returns the
digit group and the `[\d.]+` group. -/
def relTail (s : List Char) : Option (List Char × List Char) :=
  let s1 := s.dropWhile pyIsSpace
  if (String.toList "deg=").isPrefixOf s1 then
    let s2 := s1.drop 4
    let ds := s2.takeWhile pyIsDigit
    if ds.isEmpty then none
    else
      let s3 := (s2.drop ds.length).dropWhile pyIsSpace
      if (String.toList "R²=").isPrefixOf s3 then
        let s4 := s3.drop 3
        let rs := s4.takeWhile (fun c => pyIsDigit c || c = '.')
        if rs.isEmpty then none else some (ds, rs)
      else none
  else none

/-- Lazy scan for the destination group: the shortest non-newline
prefix of `s` after which `relTail` matches.  Structural recursion on
fuel (callers pass at least `s.length + 1`). -/
def dstScan : Nat → List Char → List Char → Option (List Char × List Char × List Char)
  | 0, _, _ => none
  | fuel + 1, acc, s =>
    match relTail s with
    | some p => some (acc.reverse, p.1, p.2)
    | none =>
      match s with
      | [] => none
      | c :: r => if c = '\n' then none else dstScan fuel (c :: acc) r

/-- Lazy scan for the source group: positions of `→` left to right,
with full backtracking into later arrows when the tail fails. -/
def srcScan (acc : List Char) : List Char → Option RelGroups
  | [] => none
  | c :: r =>
    if c = '\n' then none
    else if c = '→' then
      match dstScan (r.length + 1) [] r with
      | some t => some ⟨acc.reverse, t.1, t.2.1, t.2.2⟩
      | none => srcScan (c :: acc) r
    else srcScan (c :: acc) r

/-- `re.match(r"(.*?)→(.*?)\s*deg=(\d+)\s*R²=([\d.]+)", line)`. -/
def relMatch (line : List Char) : Option RelGroups :=
  srcScan [] line

/-- Python `float()` on a string drawn from `[\d.]+`: at most one dot
and at least one digit; exact decimal value. -/
def pyFloatDD (s : List Char) : Option ℚ :=
  if 1 < s.count '.' then none
  else if s.all (fun c => !pyIsDigit c) then none
  else
    let ip := s.takeWhile pyIsDigit
    let rest := s.drop ip.length
    match rest with
    | [] => some (natFromDigits ip)
    | _ :: fp => some (decValue (natFromDigits ip) (natFromDigits fp) fp.length)

/-- A parsed relation record, as appended by the loop of `parse`. -/
structure RelRec where
  src : String
  dst : String
  deg : Nat
  r2 : ℚ
deriving DecidableEq, Repr

/-- `dict(src=src.strip(), dst=dst.strip(), deg=int(deg), r2=float(r2))`;
`float` may raise `ValueError`. -/
def relConv (g : RelGroups) : Except PErr RelRec :=
  match pyFloatDD g.r2S with
  | none => .error .value
  | some q =>
    .ok ⟨String.mk (pyStrip g.src), String.mk (pyStrip g.dst), natFromDigits g.degS, q⟩

/-- The relation loop of `parse`: unmatched lines are skipped, matched
lines are converted in order, a `float` failure aborts. -/
def relLoop : List (List Char) → Except PErr (List RelRec)
  | [] => .ok []
  | l :: rest =>
    match relMatch l with
    | none => relLoop rest
    | some g =>
      match relConv g with
      | .error e => .error e
      | .ok r => (relLoop rest).map (fun rs => r :: rs)

/-- `parse(stdout)` of `app.py`: best column, reward dict, relation
list, and the stdout itself; exceptions become `Except.error`. -/
def parse (stdout : List Char) :
    Except PErr (List Char × List (String × JValue) × List RelRec × List Char) :=
  match bestStage stdout with
  | none => .error .attr
  | some best =>
    match rewardStage stdout with
    | .error e => .error e
    | .ok reward =>
      match topSearch stdout with
      | none => .error .attr
      | some blk =>
        match relLoop (pySplitlines blk) with
        | .error e => .error e
        | .ok rels => .ok (best, reward, rels, stdout)

/-! ### `run_agent` and `bar_chart` -/

/-- Outcome of the `subprocess.run` call: exit status and captured
merged stdout/stderr text. -/
structure ProcResult where
  returncode : ℤ
  stdout : String
deriving DecidableEq, Repr

/-- `run_agent`: return stdout, or raise `RuntimeError` on a non-zero
exit status. -/
def run_agent (p : ProcResult) : Except PErr (List Char) :=
  if p.returncode ≠ 0 then .error .runtime else .ok p.stdout.toList

/-- The observable content of the matplotlib figure built by
`bar_chart`: category labels, bar lengths, bar height, axis labels and
the y-inversion flag. -/
structure Fig where
  labels : List String
  values : List ℚ
  barHeight : ℚ
  xlabel : String
  title : String
  invertedY : Bool
deriving DecidableEq, Repr

/-- `bar_chart(relations)`: one horizontal bar per relation, labelled
`src→dst`, of length `r2`. -/
def bar_chart (relations : List RelRec) : Fig :=
  { labels := relations.map (fun r => r.src ++ "→" ++ r.dst)
    values := relations.map (fun r => r.r2)
    barHeight := mkRat 2 5
    xlabel := "R²"
    title := "Top relations"
    invertedY := true }

/-! ### Model of `textwrap.wrap(text, 95)` with default options
(`expand_tabs`, `replace_whitespace`, `drop_whitespace`,
`break_long_words`, `break_on_hyphens`).  The `\w` class is modelled
over ASCII alphanumerics, `_` and `²`. -/

/-- `str.expandtabs(8)`: column-aware tab expansion. -/
def expandTabsAux (col : Nat) : List Char → List Char
  | [] => []
  | c :: r =>
    if c = '\t' then List.replicate (8 - col % 8) ' ' ++ expandTabsAux 0 r
    else if c = '\n' || c = '\r' then c :: expandTabsAux 0 r
    else c :: expandTabsAux (col + 1) r

/-- `_munge_whitespace`'s translation step: each of `\t\n\v\f\r`
becomes a space. -/
def translateWs (s : List Char) : List Char :=
  s.map (fun c =>
    if c = '\t' || c = '\n' || c = '\x0b' || c = '\x0c' || c = '\r' then ' ' else c)

/-- Regex `\w` of the wrapper, modelled over ASCII plus `²`. -/
def pyIsWordChar (c : Char) : Bool :=
  ('a' ≤ c && c ≤ 'z') || ('A' ≤ c && c ≤ 'Z') || pyIsDigit c || c = '_' ||
  c.toNat = 0xb2

/-- Character class `[^\d\W]`: a word character that is not a digit. -/
def wordNotDigit (c : Char) : Bool :=
  pyIsWordChar c && !pyIsDigit c

/-- Lookbehind class `[\w!"'&.,?]` of the em-dash rule. -/
def emDashBehind (c : Char) : Bool :=
  pyIsWordChar c || c = '!' || c = '"' || c = squote || c = '&' || c = '.' ||
  c = ',' || c = '?'

/-- Lookbehind of the hyphenated-word rule, evaluated just after the
hyphen: `(?<=[^\d\W]{2}-)` or `(?<=[^\d\W]-[^\d\W]-)`; `back` is the
reversed text before the hyphen. -/
def hyphenBehindOk (back : List Char) : Bool :=
  (match back with
   | y :: x :: _ => wordNotDigit y && wordNotDigit x
   | _ => false) ||
  (match back with
   | y :: h :: x :: _ => wordNotDigit y && h = '-' && wordNotDigit x
   | _ => false)

/-- Lookahead of the hyphenated-word rule: `(?=[^\d\W]-?[^\d\W])`. -/
def hyphenAheadOk (r2 : List Char) : Bool :=
  match r2 with
  | a :: '-' :: b :: _ => wordNotDigit a && wordNotDigit b
  | a :: b :: _ => wordNotDigit a && wordNotDigit b
  | _ => false

/-- Lookahead of the em-dash rules: `(?=-{2,}\w)`. -/
def emAheadOk (r : List Char) : Bool :=
  let m := (r.takeWhile (fun c => c = '-')).length
  decide (2 ≤ m) &&
    (match r.drop m with
     | a :: _ => pyIsWordChar a
     | [] => false)

/-- The whitespace class of the wrapper's split regex:
`textwrap._whitespace`, i.e. the six ASCII whitespace characters
(narrower than `\s`). -/
def wsepIsWs (c : Char) : Bool :=
  c = '\t' || c = '\n' || c = '\x0b' || c = '\x0c' || c = '\r' || c = ' '

/-- Word-chunk scanner: lazily extend the non-whitespace atom and stop
at the first position where one of the three alternatives succeeds
(hyphenated break, end of word, em-dash lookahead).  `w` is the
reversed consumed part (nonempty), `prefixRev` the reversed text
before the word. -/
def wordScanGo (prefixRev : List Char) : Nat → List Char → List Char →
    List Char × List Char
  | 0, w, r => (w.reverse, r)
  | _ + 1, w, [] => (w.reverse, [])
  | fuel + 1, w, c :: r2 =>
    if c = '-' && hyphenBehindOk (w ++ prefixRev) && hyphenAheadOk r2 then
      (('-' :: w).reverse, r2)
    else if wsepIsWs c then (w.reverse, c :: r2)
    else if (match w with | y :: _ => emDashBehind y | [] => false) &&
        emAheadOk (c :: r2) then
      (w.reverse, c :: r2)
    else wordScanGo prefixRev fuel (c :: w) r2

/-- Entry of the word-chunk scanner: the first character must be
outside the whitespace class. -/
def wordScanStart (prefixRev s : List Char) : Option (List Char × List Char) :=
  match s with
  | [] => none
  | c :: r =>
    if wsepIsWs c then none else some (wordScanGo prefixRev (r.length + 1) [c] r)

/-- Standalone em-dash alternative `(?<=[\w!"'&.,?])-{2,}(?=\w)`. -/
def emDashMatch (prefixRev s : List Char) : Option (List Char × List Char) :=
  match prefixRev with
  | [] => none
  | p :: _ =>
    if emDashBehind p then
      let m := s.takeWhile (fun c => c = '-')
      if 2 ≤ m.length then
        match s.drop m.length with
        | a :: rest => if pyIsWordChar a then some (m, a :: rest) else none
        | [] => none
      else none
    else none

/-- `wordsep_re.split` followed by the truthiness filter: emit gaps
between matches and the matches themselves, left to right. -/
def wsepGo : Nat → List Char → List Char → List Char → List (List Char)
  | 0, _, _, _ => []
  | _ + 1, _, gapRev, [] => if gapRev.isEmpty then [] else [gapRev.reverse]
  | fuel + 1, prefixRev, gapRev, c :: r =>
    let s := c :: r
    if wsepIsWs c then
      let ws := s.takeWhile wsepIsWs
      (if gapRev.isEmpty then [] else [gapRev.reverse]) ++ ws ::
        wsepGo fuel (ws.reverse ++ prefixRev) [] (s.drop ws.length)
    else
      match emDashMatch prefixRev s with
      | some (chunk, rest) =>
        (if gapRev.isEmpty then [] else [gapRev.reverse]) ++ chunk ::
          wsepGo fuel (chunk.reverse ++ prefixRev) [] rest
      | none =>
        match wordScanStart prefixRev s with
        | some (chunk, rest) =>
          (if gapRev.isEmpty then [] else [gapRev.reverse]) ++ chunk ::
            wsepGo fuel (chunk.reverse ++ prefixRev) [] rest
        | none => wsepGo fuel (c :: prefixRev) (c :: gapRev) r

/-- The chunk list `_split` produces. -/
def wsepChunks (s : List Char) : List (List Char) :=
  wsepGo (s.length + 1) [] [] s

/-- A chunk that `str.strip` empties (whitespace-only). -/
def stripIsEmpty (s : List Char) : Bool :=
  (pyStrip s).isEmpty

/-- Inner fitting loop of `_wrap_chunks`: pop chunks while they fit. -/
def fitChunks (width : Nat) : Nat → List (List Char) →
    List (List Char) × Nat × List (List Char)
  | curLen, [] => ([], curLen, [])
  | curLen, c :: r =>
    if curLen + c.length ≤ width then
      let p := fitChunks width (curLen + c.length) r
      (c :: p.1, p.2.1, p.2.2)
    else ([], curLen, c :: r)

/-- `_handle_long_word` with `break_long_words` and
`break_on_hyphens`: take what fits (preferring a break after the last
hyphen) and leave the remainder. -/
def handleLongWord (width curLen : Nat) (chunk : List Char) :
    List Char × List Char :=
  let spaceLeft := if width < 1 then 1 else width - curLen
  let endPos :=
    if spaceLeft < chunk.length then
      match lastIdxOf '-' (chunk.take spaceLeft) with
      | some h =>
        if 0 < h && (chunk.take h).any (fun c => c ≠ '-') then h + 1 else spaceLeft
      | none => spaceLeft
    else spaceLeft
  (chunk.take endPos, chunk.drop endPos)

/-- Outer loop of `_wrap_chunks`; `noLines` is true while no line has
been emitted yet (Python's `and lines` guard). -/
def wrapChunksGo (width : Nat) : Nat → Bool → List (List Char) → List (List Char)
  | 0, _, _ => []
  | _ + 1, _, [] => []
  | fuel + 1, noLines, c0 :: r0 =>
    let chunks1 :=
      if !noLines && stripIsEmpty c0 then r0 else c0 :: r0
    match chunks1 with
    | [] => []
    | _ =>
      let fit := fitChunks width 0 chunks1
      let popped := fit.1
      let curLen := fit.2.1
      let rest := fit.2.2
      let step : List (List Char) × List (List Char) :=
        match rest with
        | c :: r =>
          if width < c.length then
            let hw := handleLongWord width curLen c
            (popped ++ [hw.1], hw.2 :: r)
          else (popped, rest)
        | [] => (popped, rest)
      let popped2 := step.1
      let rest2 := step.2
      let popped3 :=
        match popped2.getLast? with
        | some lst => if stripIsEmpty lst then popped2.dropLast else popped2
        | none => popped2
      if popped3.isEmpty then wrapChunksGo width fuel noLines rest2
      else popped3.flatten :: wrapChunksGo width fuel false rest2

/-- `textwrap.wrap(text, width)` with the default options. -/
def textwrapWrap (text : List Char) (width : Nat) : List (List Char) :=
  let munged := translateWs (expandTabsAux 0 text)
  let chunks := wsepChunks munged
  wrapChunksGo width (2 * munged.length + chunks.length + 2) true chunks

/-! ### `pdf_from_text` over an explicit filesystem state -/

/-- Content of the generated PDF: the fixed font setup and the text
lines drawn on the single page. -/
structure PdfDoc where
  font : String
  fontSize : Nat
  textLines : List String
deriving DecidableEq, Repr

/-- Serialized form of the document; the fixed header makes every
generated file non-empty. -/
def pdfBytes (d : PdfDoc) : String :=
  "%PDF-1.3 " ++ d.font ++ " " ++ toString d.fontSize ++ " " ++
    String.intercalate " " d.textLines

/-- Filesystem state: written files and the tempfile counter. -/
structure FS where
  files : List (String × PdfDoc)
  nextTmp : Nat
deriving DecidableEq, Repr

/-- Fresh name from `tempfile.NamedTemporaryFile(suffix=".pdf")`. -/
def tmpName (n : Nat) : String := "/tmp/tmp" ++ toString n ++ ".pdf"

/-- `pdf_from_text(text)`: write the 95-column-wrapped text to a fresh
temporary PDF and return its path. -/
def pdf_from_text (text : List Char) (fs : FS) : String × FS :=
  let path := tmpName fs.nextTmp
  let doc : PdfDoc := ⟨"Helvetica", 11, (textwrapWrap text 95).map String.mk⟩
  (path, ⟨(path, doc) :: fs.files, fs.nextTmp + 1⟩)

/-! ### The `analyze` callback -/

/-- Python `str.capitalize()` (ASCII model): first character
upper-cased, the rest lower-cased. -/
def pyCapitalize (s : String) : String :=
  match s.toList with
  | [] => ""
  | c :: r => String.mk (c.toUpper :: r.map Char.toLower)

/-- Round the fraction `a / b` (with `b > 0`) to the nearest natural
number, ties to even. -/
def roundHalfEvenFrac (a b : Nat) : Nat :=
  let f := a / b
  let r := a % b
  if 2 * r < b then f
  else if b < 2 * r then f + 1
  else if f % 2 = 0 then f else f + 1

/-- Zero-pad a fraction part to three digits. -/
def pad3 (m : Nat) : String :=
  if m < 10 then "00" ++ toString m
  else if m < 100 then "0" ++ toString m
  else toString m

/-- The format specifier `:.3f` on a number, with exact decimal
rounding semantics (ties to even). -/
def formatFixed3 (q : ℚ) : String :=
  let sign := if q < 0 then "-" else ""
  let a := roundHalfEvenFrac (q.num.natAbs * 1000) q.den
  sign ++ toString (a / 1000) ++ "." ++ pad3 (a % 1000)

/-- `f"... : ⟨v:.3f⟩"` applied to a decoded JSON value: formatting a
string with `:.3f` raises `ValueError`. -/
def formatFixed3J : JValue → Except Unit String
  | .num q => .ok (formatFixed3 q)
  | .str _ => .error ()

/-- The `reward_md` lines: one `- **Key** : v` line per reward entry,
in order; the first non-numeric value raises. -/
def rewardMdLines : List (String × JValue) → Except Unit (List String)
  | [] => .ok []
  | (k, v) :: rest =>
    match formatFixed3J v with
    | .error e => .error e
    | .ok s =>
      (rewardMdLines rest).map
        (fun others => ("- **" ++ pyCapitalize k ++ "** : " ++ s) :: others)

/-- The `relations_md` table rows. -/
def relationsMd (rels : List RelRec) : String :=
  String.intercalate "\n"
    (rels.map (fun r =>
      "| " ++ r.src ++ " → " ++ r.dst ++ " | " ++ toString r.deg ++ " | " ++
        formatFixed3 r.r2 ++ " |"))

/-- The markdown report of the success path (`now` stands for the
formatted `datetime.datetime.now()`). -/
def mdReport (best : List Char) (rmd relmd now : String) : String :=
  "\n### 🔍 Best column: `" ++ String.mk best ++
  "`\n\n#### Reward metrics\n" ++ rmd ++
  "\n\n#### Top relations\n| Relation | Degree | R² |\n|----------|--------|----|\n" ++
  relmd ++ "\n\n*Generated " ++ now ++ "*\n"

/-- The fixed user-facing failure message of `analyze`. -/
def failMsg : String := "### ❌ Analysis failed\n*(see server logs)*"

/-- The `analyze` callback: `run_agent` and `parse` run inside the
`try`, so their exceptions collapse into the failure triple; the
reward formatting, chart and PDF happen after the `except` block, and
a formatting `ValueError` there propagates as an uncaught exception
(`Except.error`). -/
def analyze (p : ProcResult) (now : String) (fs : FS) :
    Except Unit ((String × Option Fig × Option String) × FS) :=
  match run_agent p >>= parse with
  | .error _ => .ok ((failMsg, none, none), fs)
  | .ok (best, reward, rels, full) =>
    match rewardMdLines reward with
    | .error e => .error e
    | .ok ls =>
      let md := mdReport best (String.intercalate "\n" ls) (relationsMd rels) now
      let pf := pdf_from_text full fs
      .ok ((md, some (bar_chart rels), some pf.1), pf.2)

/-! ### Launch port selection -/

/-- Python `int()` on a string: surrounding whitespace allowed, an
optional sign, then digits with single underscores strictly between
digits. -/
def pyIntStr (s : List Char) : Except Unit ℤ :=
  let t := pyStrip s
  let core : Bool × List Char :=
    match t with
    | '-' :: r => (true, r)
    | '+' :: r => (false, r)
    | _ => (false, t)
  let d := core.2
  let okShape :=
    !d.isEmpty &&
    d.all (fun c => pyIsDigit c || c = '_') &&
    (match d.head? with | some c => pyIsDigit c | none => false) &&
    (match d.getLast? with | some c => pyIsDigit c | none => false) &&
    !containsSub ['_', '_'] d
  if okShape then
    let n : ℤ := natFromDigits (d.filter pyIsDigit)
    .ok (if core.1 then -n else n)
  else .error ()

/-- `int(os.environ.get("PORT", 7860))`: the launch port. -/
def serverPort (envPort : Option String) : Except Unit ℤ :=
  match envPort with
  | none => .ok 7860
  | some s => pyIntStr s.toList

/-! ### The artifact fetch at module load -/

/-- The remote model repository: a set of named files. -/
structure RemoteRepo where
  files : List (String × String)
deriving DecidableEq, Repr

/-- The local cache directory the snapshot is materialised into. -/
structure LocalCache where
  files : List (String × String)
deriving DecidableEq, Repr

/-- Modelled from the spec: `snapshot_download` is a `huggingface_hub`
library call whose code is not part of this repository; the spec
describes it as an "idempotent download-or-reuse of a remote directory
into a local cache path" with "trivial caching semantics (presence
check, no integrity verification, no versioning)".  The boolean
records whether a download was performed. -/
def snapshot_download (repo : RemoteRepo) (cache : LocalCache) : LocalCache × Bool :=
  if repo.files.all (fun f => decide (f ∈ cache.files)) then (cache, false)
  else (⟨repo.files⟩, true)

/-! ### The documented three-pattern stdout format, as a renderer.
A stdout exactly matching the format of spec §6 is the image of
`render` over components satisfying the side conditions stated with
the round-trip theorem. -/

/-- Input form of one relation line: source, destination, degree
digits, R² literal. -/
structure RelIn where
  src : List Char
  dst : List Char
  degS : List Char
  r2S : List Char
deriving DecidableEq, Repr

/-- One line `<src>→<dst> deg=<int> R²=<float>` of the documented
relations block. -/
def renderRelLine (r : RelIn) : List Char :=
  r.src ++ '→' :: r.dst ++ String.toList " deg=" ++ r.degS ++
    String.toList " R²=" ++ r.r2S

/-- One `'key': value` member of the single-quoted dict literal. -/
def memRender (p : List Char × List Char) : List Char :=
  squote :: p.1 ++ squote :: ':' :: ' ' :: p.2

/-- The members of the dict literal, separated by `, `. -/
def membersRender : List (List Char × List Char) → List Char
  | [] => []
  | [p] => memRender p
  | p :: rest => memRender p ++ ',' :: ' ' :: membersRender rest

/-- The single-quoted Python dict literal of the reward line. -/
def renderDict (pairs : List (List Char × List Char)) : List Char :=
  '{' :: membersRender pairs ++ ['}']

/-- A stdout exactly matching the documented three-pattern format:
the `Best column:` line, the `Reward break-down:` line, and the
`Top relations:` block terminated by a blank line. -/
def render (best : List Char) (pairs : List (List Char × List Char))
    (rels : List RelIn) : List Char :=
  bestLit ++ ' ' :: best ++ '\n' ::
    (rewardLit ++ ' ' :: renderDict pairs ++ '\n' ::
      (topLit ++ '\n' :: (rels.map (fun r => renderRelLine r ++ ['\n'])).flatten ++ ['\n']))

/-- One `"key": value` member after the `'` → `"` replacement. -/
def memRenderJ (p : List Char × List Char) : List Char :=
  '"' :: p.1 ++ '"' :: ':' :: ' ' :: p.2

/-- The replaced members, separated by `, `. -/
def membersRenderJ : List (List Char × List Char) → List Char
  | [] => []
  | [p] => memRenderJ p
  | p :: rest => memRenderJ p ++ ',' :: ' ' :: membersRenderJ rest

/-- A key is renderable inside the dict literal: no quotes, no
backslash, no closing brace, no control characters. -/
def keyOk (k : List Char) : Bool :=
  k.all (fun c => !(c = '"' || c = squote || c = bslash || c = '}' || c.toNat < 0x20))

/-- A value literal consists of digits, dots and minus signs only. -/
def valOk (v : List Char) : Bool :=
  v.all (fun c => pyIsDigit c || c = '.' || c = '-')

/-- A list whose head (if any) cannot extend a JSON number: the
number scanner stops exactly before it. -/
def numTermOk (rest : List Char) : Prop :=
  ∀ c, rest.head? = some c → pyIsDigit c = false ∧ c ≠ '.' ∧ c ≠ 'e' ∧ c ≠ 'E'

/-- The unsigned part of a float literal of the documented reward
format: integer digits without a spurious leading zero, then an
optional fraction; its exact decimal value. -/
def decLitUnsigned (v1 : List Char) : Option ℚ :=
  if (v1.takeWhile pyIsDigit).length = 0 then none
  else if 1 < (v1.takeWhile pyIsDigit).length ∧
      (v1.takeWhile pyIsDigit).head? = some '0' then none
  else
    match v1.drop (v1.takeWhile pyIsDigit).length with
    | [] => some (natFromDigits (v1.takeWhile pyIsDigit))
    | '.' :: d2 =>
      if !d2.isEmpty && d2.all pyIsDigit then
        some (decValue (natFromDigits (v1.takeWhile pyIsDigit))
          (natFromDigits d2) d2.length)
      else none
    | _ => none

/-- A float literal of the documented reward format: optional minus
sign, then the unsigned literal. -/
def decLit (v : List Char) : Option ℚ :=
  match v with
  | '-' :: v1 => (decLitUnsigned v1).map (fun q => -q)
  | v1 => decLitUnsigned v1

/-- The reward entry `parse` recovers from one rendered pair. -/
def pairVal (p : List Char × List Char) : String × JValue :=
  (String.mk p.1, JValue.num ((decLit p.2).getD 0))

/-- The relation record `parse` recovers from one rendered line. -/
def relVal (r : RelIn) : RelRec :=
  ⟨String.mk (pyStrip r.src), String.mk (pyStrip r.dst),
    natFromDigits r.degS, (pyFloatDD r.r2S).getD 0⟩

/-- Side conditions on one rendered relation line: the source starts
with a non-space character and contains no arrow and no line
boundary; the destination contains no line boundary and no `deg=`;
the degree is a nonempty digit string; the R² literal is a nonempty
`[\d.]` string accepted by `float`. -/
def relInOk (r : RelIn) : Prop :=
  r.src.dropWhile pyIsSpace = r.src ∧
  (∀ c ∈ r.src, pyIsLineBreak c = false ∧ c ≠ '→') ∧
  (∀ c ∈ r.dst, pyIsLineBreak c = false) ∧
  containsSub (String.toList "deg=") r.dst = false ∧
  r.degS ≠ [] ∧ (∀ c ∈ r.degS, pyIsDigit c = true) ∧
  (∀ c ∈ r.r2S, (pyIsDigit c || c = '.') = true) ∧
  (pyFloatDD r.r2S).isSome

/-! ### Concrete example inputs used by counterexamples and
witnesses -/

/-- A format-conforming stdout whose reward dict maps `acc` to the
string `high`. -/
def exStdoutC3 : List Char :=
  String.toList "Best column: colA\nReward break-down: " ++
    ('{' :: squote :: String.toList "acc" ++ squote :: ':' :: ' ' :: squote ::
      String.toList "high" ++ [squote, '}']) ++
    String.toList "\nTop relations:\nx→y deg=1 R²=0.5\n\n"

/-- A format-conforming stdout with an R² value above 1. -/
def exStdoutC7 : List Char :=
  String.toList "Best column: col\nReward break-down: " ++
    ('{' :: squote :: String.toList "acc" ++ squote :: String.toList ": 1" ++ ['}']) ++
    String.toList "\nTop relations:\na→b deg=3 R²=2.0\n\n"

/-- A stdout with the first two patterns but no relations block, and a
reward dict that is not valid JSON. -/
def exStdoutC6 : List Char :=
  String.toList "Best column: a\nReward break-down: " ++
    ['{', 'x', '}', '\n']

/-- A stdout whose relations block contains only unmatched lines. -/
def exStdoutC8 : List Char :=
  String.toList "Best column: a\nReward break-down: " ++
    ['{', '}'] ++
    String.toList "\nTop relations:\nnoise here\nanother one\n\n"

/-- A stdout parsed successfully with an empty reward dict (used to
exercise the success path of `analyze`). -/
def exStdoutC5 : List Char :=
  String.toList "Best column: a\nReward break-down: " ++
    ['{', '}'] ++
    String.toList "\nTop relations:\nx→y deg=1 R²=0.5\n\n"

/-! ## Theorems -/

/-- Claim C2: whenever `run_agent` or `parse` raises (non-zero exit,
regex match failure, malformed reward JSON, bad float literal), the
`analyze` callback does not propagate the exception and returns the
fixed generic failure markdown with `None` chart and `None` PDF. -/
theorem analyze_failure_collapsed (p : ProcResult) (now : String) (fs : FS)
    (e : PErr) (h : run_agent p >>= parse = Except.error e) :
    analyze p now fs = .ok ((failMsg, none, none), fs) := by
  unfold analyze
  rw [h]

/-- Witness for C2 at a non-zero exit status. -/
theorem analyze_failure_collapsed_witness :
    analyze ⟨1, ""⟩ "now" ⟨[], 0⟩ = .ok ((failMsg, none, none), ⟨[], 0⟩) :=
  analyze_failure_collapsed ⟨1, ""⟩ "now" ⟨[], 0⟩ .runtime rfl

/-- Claim C3: there is a stdout matching the documented three-pattern
format whose reward dict is valid JSON after quote replacement but
maps `acc` to a string; `parse` succeeds on it, and `analyze` raises
an uncaught exception (the `:.3f` formatting is outside the
try/except) instead of returning the failure triple. -/
theorem analyze_nonnumeric_reward_uncaught :
    parse exStdoutC3 =
      .ok (String.toList "colA", [("acc", JValue.str "high")],
        [⟨"x", "y", 1, mkRat 1 2⟩], exStdoutC3) ∧
    analyze ⟨0, String.mk exStdoutC3⟩ "now" ⟨[], 0⟩ = .error () :=
  ⟨by rfl, by rfl⟩

/-- Claim C4: the bar chart has one category per relation, the
category labels are `src→dst` in parse order, and the bar lengths are
the parsed R² values in the same order. -/
theorem bar_chart_labels_values (relations : List RelRec) :
    (bar_chart relations).labels =
      relations.map (fun r => r.src ++ "→" ++ r.dst) ∧
    (bar_chart relations).values = relations.map (fun r => r.r2) ∧
    (bar_chart relations).labels.length = relations.length :=
  ⟨rfl, rfl, by simp [bar_chart]⟩

/-- Claim C7: every parsed relation has a non-negative integer degree,
and no validation bounds R²: a concrete stdout parses to a record with
R² = 2 > 1. -/
theorem parse_deg_nonneg_r2_unbounded :
    (∀ s b w rl f, parse s = .ok (b, w, rl, f) → ∀ r ∈ rl, 0 ≤ (r.deg : ℤ)) ∧
    (parse exStdoutC7 =
      .ok (String.toList "col", [("acc", JValue.num 1)],
        [⟨"a", "b", 3, 2⟩], exStdoutC7) ∧
      (1 : ℚ) < (⟨"a", "b", 3, 2⟩ : RelRec).r2) := by
  refine ⟨?_, by rfl, by norm_num⟩
  intro s b w rl f _ r _
  exact Int.natCast_nonneg r.deg

/-- Witness for C7 at the concrete parse of `exStdoutC7`. -/
theorem parse_deg_nonneg_r2_unbounded_witness :
    0 ≤ (((⟨"a", "b", 3, 2⟩ : RelRec)).deg : ℤ) :=
  parse_deg_nonneg_r2_unbounded.1 exStdoutC7 (String.toList "col")
    [("acc", JValue.num 1)] [⟨"a", "b", 3, 2⟩] exStdoutC7 (by rfl)
    ⟨"a", "b", 3, 2⟩ (List.mem_singleton.mpr rfl)

/-- `parse` hands back the stdout it was given as the fourth
component. -/
theorem parse_ok_full (s b w rl f : _) (h : parse s = .ok (b, w, rl, f)) :
    f = s := by
  unfold parse at h
  repeat' split at h
  all_goals simp_all

/-- Claim C5: `pdf_from_text` writes a file at the returned path whose
text content is the 95-column wrap of the given text, the serialized
file is non-empty, and on the success path of `analyze` the text
wrapped into the PDF is the full stdout of the subprocess. -/
theorem pdf_from_text_wrapped_nonempty (text : List Char) (fs : FS) :
    (pdf_from_text text fs).2.files.lookup (pdf_from_text text fs).1 =
      some ⟨"Helvetica", 11, (textwrapWrap text 95).map String.mk⟩ ∧
    0 < (pdfBytes ⟨"Helvetica", 11, (textwrapWrap text 95).map String.mk⟩).length ∧
    (∀ p now fs0 md fig path fs1,
      analyze p now fs0 = .ok ((md, fig, some path), fs1) →
      fs1.files.lookup path =
        some ⟨"Helvetica", 11, (textwrapWrap p.stdout.toList 95).map String.mk⟩) := by
  refine ⟨by simp [pdf_from_text, List.lookup], ?_, ?_⟩
  · simp [pdfBytes, String.length_append]
    left; left; left
    decide
  · intro p now fs0 md fig path fs1 h
    unfold analyze at h
    rcases hrp : run_agent p >>= parse with e | v
    · rw [hrp] at h
      simp at h
    · rw [hrp] at h
      obtain ⟨best, reward, rels, full⟩ := v
      rcases hml : rewardMdLines reward with e2 | ls
      · simp [hml] at h
      · simp only [hml] at h
        simp only [Except.ok.injEq, Prod.mk.injEq] at h
        obtain ⟨⟨_, _, hpath⟩, hfs⟩ := h
        rcases hra : run_agent p with e3 | stdo
        · rw [hra] at hrp
          exact absurd hrp (fun k => Except.noConfusion k)
        · have hstd : stdo = p.stdout.toList := by
            unfold run_agent at hra
            split at hra
            · exact Except.noConfusion hra
            · exact (Except.ok.inj hra).symm
          rw [hra] at hrp
          have hp2 : parse stdo = Except.ok (best, reward, rels, full) := hrp
          have hfull : full = stdo := parse_ok_full _ _ _ _ _ hp2
          subst hfull
          subst hstd
          subst hfs
          have hp3 : (pdf_from_text p.stdout.toList fs0).1 = path :=
            Option.some.inj hpath
          subst hp3
          simp [pdf_from_text, List.lookup]

/-- Witness for C5: the success path of `analyze` on a concrete
stdout writes the wrapped stdout to the returned temporary path. -/
theorem pdf_from_text_wrapped_nonempty_witness :
    (FS.mk [("/tmp/tmp0.pdf",
        ⟨"Helvetica", 11, (textwrapWrap exStdoutC5 95).map String.mk⟩)] 1).files.lookup
        "/tmp/tmp0.pdf" =
      some ⟨"Helvetica", 11,
        (textwrapWrap (String.mk exStdoutC5).toList 95).map String.mk⟩ :=
  (pdf_from_text_wrapped_nonempty [] ⟨[], 0⟩).2.2 ⟨0, String.mk exStdoutC5⟩ "now"
    ⟨[], 0⟩
    (mdReport (String.toList "a") "" "| x → y | 1 | 0.500 |" "now")
    (some (bar_chart [⟨"x", "y", 1, mkRat 1 2⟩])) "/tmp/tmp0.pdf"
    (FS.mk [("/tmp/tmp0.pdf",
      ⟨"Helvetica", 11, (textwrapWrap exStdoutC5 95).map String.mk⟩)] 1)
    (by rfl)

/-- Defining equation of `firstOccIdx` on a cons cell. -/
theorem firstOccIdx_cons (pat : List Char) (c : Char) (rest : List Char) :
    firstOccIdx pat (c :: rest) =
      if pat.isPrefixOf (c :: rest) then some 0
      else (firstOccIdx pat rest).map (· + 1) := rfl

/-- Unfolding step: an occurrence in `c :: rest` is an occurrence at
the head or one in the tail. -/
theorem containsSub_cons (pat : List Char) (c : Char) (rest : List Char) :
    containsSub pat (c :: rest) =
      (pat.isPrefixOf (c :: rest) || containsSub pat rest) := by
  unfold containsSub
  rw [firstOccIdx_cons]
  by_cases h : pat.isPrefixOf (c :: rest)
  · simp [h]
  · cases firstOccIdx pat rest <;> simp [h]

/-- `splitOnFirst` fails exactly when the pattern does not occur. -/
theorem splitOnFirst_none_iff (pat s : List Char) (hp : pat.isEmpty = false) :
    splitOnFirst pat s = none ↔ containsSub pat s = false := by
  induction s with
  | nil => simp [splitOnFirst, containsSub, firstOccIdx, hp]
  | cons c rest ih =>
    rw [containsSub_cons]
    unfold splitOnFirst
    by_cases hpre : pat.isPrefixOf (c :: rest)
    · simp [hpre]
    · simp only [hpre, if_false, Bool.false_or]
      cases hso : splitOnFirst pat rest <;> simp_all

/-- Without the `Best column:` literal the first regex fails. -/
theorem bestStage_none_of_not_contains (s : List Char)
    (h : containsSub bestLit s = false) : bestStage s = none := by
  unfold bestStage
  rw [(splitOnFirst_none_iff bestLit s rfl).mpr h]
  rfl

/-- Without the `Reward break-down:` literal the second regex fails. -/
theorem rewardSearch_none_of_not_contains (s : List Char)
    (h : containsSub rewardLit s = false) : rewardSearch s = none := by
  induction s with
  | nil => rfl
  | cons c rest ih =>
    rw [containsSub_cons] at h
    simp only [Bool.or_eq_false_iff] at h
    have ht : rewardTry (c :: rest) = none := by
      unfold rewardTry
      rw [if_neg (by simp [h.1])]
    unfold rewardSearch
    rw [ht, ih h.2]

/-- Counterexample to claim C6 as stated: this stdout has the first
two patterns but no `Top relations:` block, yet `parse` raises
`json.JSONDecodeError` (from the malformed reward dict), not
`AttributeError`. -/
theorem parse_missing_pattern_counterexample :
    containsSub bestLit exStdoutC6 = true ∧
    containsSub rewardLit exStdoutC6 = true ∧
    containsSub topLit exStdoutC6 = false ∧
    parse exStdoutC6 = .error .json ∧
    PErr.json ≠ PErr.attr :=
  ⟨by decide, by decide, by decide, by rfl, by decide⟩

/-- Claim C6 as amended: a missing pattern produces `AttributeError`
provided no earlier stage fails first — a missing `Best column:`
always does; a missing `Reward break-down:` always does (the best
stage cannot raise); a missing or unterminated `Top relations:` block
does whenever the reward stage decoded successfully. -/
theorem parse_missing_pattern_attr :
    (∀ s, containsSub bestLit s = false → parse s = .error .attr) ∧
    (∀ s, containsSub rewardLit s = false → parse s = .error .attr) ∧
    (∀ s reward, rewardStage s = .ok reward → topSearch s = none →
      parse s = .error .attr) := by
  refine ⟨?_, ?_, ?_⟩
  · intro s h
    unfold parse
    rw [bestStage_none_of_not_contains s h]
  · intro s h
    unfold parse
    cases hb : bestStage s with
    | none => rfl
    | some b =>
      have hr : rewardStage s = .error .attr := by
        unfold rewardStage
        rw [rewardSearch_none_of_not_contains s h]
      rw [hr]
  · intro s reward h1 h2
    unfold parse
    cases hb : bestStage s with
    | none => rfl
    | some b => rw [h1, h2]

/-- Witness for the amended C6 at concrete inputs for each stage. -/
theorem parse_missing_pattern_attr_witness :
    parse (String.toList "no patterns here") = .error .attr ∧
    parse (String.toList "Best column: a\nnothing else") = .error .attr ∧
    parse (String.toList "Best column: a\nReward break-down: " ++ ['{', '}']) =
      .error .attr :=
  ⟨parse_missing_pattern_attr.1 (String.toList "no patterns here") (by decide),
   parse_missing_pattern_attr.2.1 (String.toList "Best column: a\nnothing else")
     (by decide),
   parse_missing_pattern_attr.2.2
     (String.toList "Best column: a\nReward break-down: " ++ ['{', '}']) []
     (by rfl) (by rfl)⟩

/-- A line the relation regex does not match is skipped by the loop. -/
theorem relLoop_skip (pre post : List (List Char)) (l : List Char)
    (h : relMatch l = none) :
    relLoop (pre ++ l :: post) = relLoop (pre ++ post) := by
  induction pre with
  | nil => simp only [List.nil_append, relLoop, h]
  | cons p pre ih => simp only [List.cons_append, relLoop, List.append_eq, ih]

/-- A block whose lines all fail to match yields the empty list. -/
theorem relLoop_nil_of_all_unmatched (lines : List (List Char))
    (h : ∀ l ∈ lines, relMatch l = none) : relLoop lines = .ok [] := by
  induction lines with
  | nil => rfl
  | cons l rest ih =>
    unfold relLoop
    rw [h l (by simp)]
    exact ih (fun x hx => h x (by simp [hx]))

/-- Claim C8: lines of the relations block that do not match the
relation pattern are silently omitted, and a block with no matching
line gives an empty relation list while `parse` still succeeds. -/
theorem parse_unmatched_lines_omitted :
    (∀ pre l post, relMatch l = none →
      relLoop (pre ++ l :: post) = relLoop (pre ++ post)) ∧
    (∀ s best reward blk, bestStage s = some best → rewardStage s = .ok reward →
      topSearch s = some blk → (∀ l ∈ pySplitlines blk, relMatch l = none) →
      parse s = .ok (best, reward, [], s)) := by
  refine ⟨fun pre l post h => relLoop_skip pre post l h, ?_⟩
  intro s best reward blk h1 h2 h3 h4
  unfold parse
  simp [h1, h2, h3, relLoop_nil_of_all_unmatched _ h4]

/-- Witness for C8 on a block of two noise lines. -/
theorem parse_unmatched_lines_omitted_witness :
    parse exStdoutC8 = .ok (String.toList "a", [], [], exStdoutC8) :=
  parse_unmatched_lines_omitted.2 exStdoutC8 (String.toList "a") []
    (String.toList "noise here\nanother one") (by rfl) (by rfl) (by rfl)
    (by decide)

/-- Claim C9: the launch port is `int(PORT)` when the variable is set
(and parses), and 7860 when it is unset. -/
theorem serverPort_selects (s : String) (n : ℤ)
    (h : pyIntStr s.toList = .ok n) :
    serverPort (some s) = .ok n ∧ serverPort none = .ok 7860 :=
  ⟨h, rfl⟩

/-- Witness for C9 at `PORT=8080`. -/
theorem serverPort_selects_witness :
    serverPort (some "8080") = .ok 8080 ∧ serverPort none = .ok 7860 :=
  serverPort_selects "8080" 8080 rfl

/-! ### Occurrence lemmas for the round-trip theorem (claim C1) -/

/-- A pattern that is a prefix of some suffix of `X` occurs in `X`. -/
theorem containsSub_of_isPrefixOf_drop (pat X : List Char) (i : Nat)
    (hne : pat ≠ []) (h : pat.isPrefixOf (X.drop i)) :
    containsSub pat X = true := by
  induction X generalizing i with
  | nil =>
    rw [List.drop_nil] at h
    rw [List.isPrefixOf_iff_prefix, List.prefix_nil] at h
    exact absurd h hne
  | cons c X ih =>
    cases i with
    | zero =>
      rw [containsSub_cons]
      rw [List.drop_zero] at h
      simp [h]
    | succ j =>
      rw [containsSub_cons]
      rw [List.drop_succ_cons] at h
      rw [ih j h]
      simp

/-- If `X` ends in a newline, the pattern has no newline, and the
pattern does not occur inside `X`, then no occurrence of the pattern
in `X ++ Y` starts inside `X`. -/
theorem noPrefixAt_of_newline_end (pat W Y : List Char)
    (hne : pat ≠ []) (hnl : '\n' ∉ pat)
    (hc : containsSub pat (W ++ ['\n']) = false) :
    ∀ i < (W ++ ['\n']).length, ¬ pat.isPrefixOf (((W ++ ['\n']) ++ Y).drop i) := by
  intro i hi hpre
  have hiX : i ≤ (W ++ ['\n']).length := Nat.le_of_lt hi
  rw [List.drop_append_of_le_length hiX] at hpre
  have hiW : i ≤ W.length := by
    simp only [List.length_append, List.length_singleton] at hi
    omega
  have hnlA : '\n' ∈ (W ++ ['\n']).drop i := by
    rw [List.drop_append_of_le_length hiW]
    simp
  rw [List.isPrefixOf_iff_prefix] at hpre
  by_cases hlen : pat.length ≤ ((W ++ ['\n']).drop i).length
  · rw [List.prefix_iff_eq_take] at hpre
    have hp2 : pat <+: (W ++ ['\n']).drop i := by
      have h2 : pat = ((W ++ ['\n']).drop i).take pat.length := by
        conv_lhs => rw [hpre]
        rw [List.take_append_of_le_length hlen]
      rw [h2]
      exact List.take_prefix _ _
    rw [← List.isPrefixOf_iff_prefix] at hp2
    rw [containsSub_of_isPrefixOf_drop pat (W ++ ['\n']) i hne hp2] at hc
    exact Bool.noConfusion hc
  · have hAle : ((W ++ ['\n']).drop i).length ≤ pat.length := Nat.le_of_not_le hlen
    have h1 : pat.take ((W ++ ['\n']).drop i).length = (W ++ ['\n']).drop i := by
      rw [List.prefix_iff_eq_take] at hpre
      calc pat.take ((W ++ ['\n']).drop i).length
          = (((W ++ ['\n']).drop i ++ Y).take pat.length).take
              ((W ++ ['\n']).drop i).length := by rw [← hpre]
        _ = ((W ++ ['\n']).drop i ++ Y).take
              (min ((W ++ ['\n']).drop i).length pat.length) := by
              rw [List.take_take]
        _ = ((W ++ ['\n']).drop i ++ Y).take ((W ++ ['\n']).drop i).length := by
              rw [Nat.min_eq_left hAle]
        _ = (W ++ ['\n']).drop i := List.take_left _ _
    have hp2 : (W ++ ['\n']).drop i <+: pat := by
      rw [← h1]
      exact List.take_prefix _ _
    exact hnl (hp2.mem hnlA)

/-- Defining equation of `splitOnFirst` on a cons cell. -/
theorem splitOnFirst_cons (pat : List Char) (c : Char) (rest : List Char) :
    splitOnFirst pat (c :: rest) =
      if pat.isPrefixOf (c :: rest) then some ([], (c :: rest).drop pat.length)
      else (splitOnFirst pat rest).map (fun p => (c :: p.1, p.2)) := rfl

/-- `splitOnFirst` passes over a region with no occurrence start. -/
theorem splitOnFirst_skip (pat X Y : List Char)
    (h : ∀ i < X.length, ¬ pat.isPrefixOf ((X ++ Y).drop i)) :
    splitOnFirst pat (X ++ Y) =
      (splitOnFirst pat Y).map (fun p => (X ++ p.1, p.2)) := by
  induction X with
  | nil =>
    simp only [List.nil_append]
    cases splitOnFirst pat Y <;> simp
  | cons c X ih =>
    have h0 : ¬ pat.isPrefixOf (c :: (X ++ Y)) := by
      have h' := h 0 (by simp)
      simpa using h'
    have hrest : ∀ i < X.length, ¬ pat.isPrefixOf ((X ++ Y).drop i) := by
      intro i hi
      have h' := h (i + 1) (by simp only [List.length_cons]; omega)
      rw [List.cons_append, List.drop_succ_cons] at h'
      exact h'
    rw [List.cons_append, splitOnFirst_cons, if_neg h0, ih hrest]
    cases splitOnFirst pat Y <;> simp

/-- `splitOnFirst` at an occurrence sitting at the head. -/
theorem splitOnFirst_here (pat Y : List Char) (hne : pat ≠ []) :
    splitOnFirst pat (pat ++ Y) = some ([], Y) := by
  cases pat with
  | nil => exact absurd rfl hne
  | cons a b =>
    rw [List.cons_append, splitOnFirst_cons]
    have hp : (a :: b).isPrefixOf (a :: (b ++ Y)) := by
      rw [List.isPrefixOf_iff_prefix, ← List.cons_append]
      exact List.prefix_append _ _
    rw [if_pos hp, ← List.cons_append, List.drop_left]

/-- The leftmost split at a designed occurrence. -/
theorem splitOnFirst_exact (pat X Y : List Char) (hne : pat ≠ [])
    (h : ∀ i < X.length, ¬ pat.isPrefixOf ((X ++ (pat ++ Y)).drop i)) :
    splitOnFirst pat (X ++ (pat ++ Y)) = some (X, Y) := by
  rw [splitOnFirst_skip pat X (pat ++ Y) h, splitOnFirst_here pat Y hne]
  simp

/-- `dropWhile` is idempotent. -/
theorem dropWhile_idem (p : Char → Bool) (s : List Char) :
    (s.dropWhile p).dropWhile p = s.dropWhile p := by
  induction s with
  | nil => rfl
  | cons c rest ih =>
    rw [List.dropWhile_cons]
    split
    · exact ih
    · rename_i h
      rw [List.dropWhile_cons, if_neg h]

/-- Stripping is unaffected by first dropping leading whitespace. -/
theorem pyStrip_dropWhile (s : List Char) :
    pyStrip (s.dropWhile pyIsSpace) = pyStrip s := by
  unfold pyStrip
  rw [dropWhile_idem]

/-- `dropWhile` over an append whose left part does not vanish. -/
theorem dropWhile_append_of_ne (p : Char → Bool) (xs ys : List Char)
    (h : xs.dropWhile p ≠ []) :
    (xs ++ ys).dropWhile p = xs.dropWhile p ++ ys := by
  rw [List.dropWhile_append]
  simp only [List.isEmpty_iff]
  rw [if_neg h]

/-- `takeWhile` stops exactly at the first failing element. -/
theorem takeWhile_append_stop (p : Char → Bool) (xs : List Char) (c : Char)
    (ys : List Char) (hxs : ∀ x ∈ xs, p x = true) (hc : p c = false) :
    (xs ++ c :: ys).takeWhile p = xs := by
  rw [List.takeWhile_append_of_pos hxs, List.takeWhile_cons, hc]
  simp

/-- The best-column stage on a rendered stdout: the literal is found
at position 0, greedy whitespace and the line rest recover the
stripped name. -/
theorem bestStage_render (best R : List Char)
    (h1 : '\n' ∉ best) (h2 : best.dropWhile pyIsSpace ≠ []) :
    bestStage (bestLit ++ (' ' :: best ++ '\n' :: R)) = some (pyStrip best) := by
  unfold bestStage
  rw [splitOnFirst_here bestLit _ (by decide)]
  simp only [Option.map_some']
  congr 1
  have hdw : (' ' :: best ++ '\n' :: R).dropWhile pyIsSpace =
      best.dropWhile pyIsSpace ++ '\n' :: R := by
    rw [List.cons_append, List.dropWhile_cons, if_pos (by decide)]
    exact dropWhile_append_of_ne pyIsSpace best ('\n' :: R) h2
  rw [hdw]
  rw [takeWhile_append_stop _ _ _ _ ?all ?stop]
  case all =>
    intro x hx
    have hxb : x ∈ best := List.dropWhile_subset _ hx
    simp only [ne_eq, decide_eq_true_eq]
    exact fun hxe => h1 (hxe ▸ hxb)
  case stop => simp
  rw [pyStrip_dropWhile]

/-- Defining equation of `rewardSearch` on a cons cell. -/
theorem rewardSearch_cons (c : Char) (rest : List Char) :
    rewardSearch (c :: rest) =
      match rewardTry (c :: rest) with
      | some g => some g
      | none => rewardSearch rest := rfl

/-- `rewardSearch` passes over a region with no occurrence start. -/
theorem rewardSearch_skip (X Y : List Char)
    (h : ∀ i < X.length, ¬ rewardLit.isPrefixOf ((X ++ Y).drop i)) :
    rewardSearch (X ++ Y) = rewardSearch Y := by
  induction X with
  | nil => rw [List.nil_append]
  | cons c X ih =>
    have h0 : ¬ rewardLit.isPrefixOf (c :: (X ++ Y)) := by
      have h' := h 0 (by simp)
      simpa using h'
    have hrest : ∀ i < X.length, ¬ rewardLit.isPrefixOf ((X ++ Y).drop i) := by
      intro i hi
      have h' := h (i + 1) (by simp only [List.length_cons]; omega)
      rw [List.cons_append, List.drop_succ_cons] at h'
      exact h'
    have ht : rewardTry (c :: (X ++ Y)) = none := by
      unfold rewardTry
      rw [if_neg h0]
    rw [List.cons_append, rewardSearch_cons, ht]
    exact ih hrest

/-- The last index of the final element when it appears nowhere
earlier. -/
theorem lastIdxOf_append_last (c : Char) (xs : List Char) (h : c ∉ xs) :
    lastIdxOf c (xs ++ [c]) = some xs.length := by
  induction xs with
  | nil =>
    rw [List.nil_append]
    unfold lastIdxOf
    simp [lastIdxOf]
  | cons x xs ih =>
    have hx : c ∉ xs := fun k => h (List.mem_cons_of_mem _ k)
    rw [List.cons_append, lastIdxOf, ih hx]
    simp

/-- The reward regex succeeds at a rendered occurrence: the group is
the whole single-line dict literal. -/
theorem rewardTry_here (inner R2 : List Char)
    (hni : '\n' ∉ inner) (hbr : '}' ∉ inner) :
    rewardTry (rewardLit ++ (' ' :: ('{' :: (inner ++ ['}'])) ++ ('\n' :: R2))) =
      some ('{' :: (inner ++ ['}'])) := by
  unfold rewardTry
  rw [if_pos ?pre]
  case pre =>
    rw [List.isPrefixOf_iff_prefix]
    exact List.prefix_append _ _
  rw [List.drop_left]
  have hdict : ∀ x ∈ ('{' :: (inner ++ ['}'])), (decide (x ≠ '\n')) = true := by
    intro x hx
    simp only [decide_eq_true_eq, ne_eq]
    rcases List.mem_cons.mp hx with h1 | h1
    · subst h1; decide
    · rcases List.mem_append.mp h1 with h2 | h2
      · exact fun k => hni (k ▸ h2)
      · rcases List.mem_singleton.mp h2 with rfl
        decide
  have hws : ((' ' :: ('{' :: (inner ++ ['}'])) ++ ('\n' :: R2)).dropWhile pyIsSpace) =
      ('{' :: (inner ++ ['}'])) ++ ('\n' :: R2) := by
    rw [List.cons_append, List.dropWhile_cons, if_pos (by decide),
      List.cons_append, List.dropWhile_cons, if_neg (by decide)]
  rw [hws]
  simp only [List.cons_append]
  have hseg : (('{' :: (inner ++ ['}'])) ++ ('\n' :: R2)).takeWhile
      (fun x => x ≠ '\n') = '{' :: (inner ++ ['}']) :=
    takeWhile_append_stop _ _ _ _ hdict (by decide)
  simp only [List.cons_append] at hseg
  rw [hseg]
  have hlast : lastIdxOf '}' ('{' :: (inner ++ ['}'])) = some (inner.length + 1) := by
    have h2 : '}' ∉ ('{' :: inner) := by
      intro k
      rcases List.mem_cons.mp k with h3 | h3
      · exact absurd h3.symm (by decide)
      · exact hbr h3
    have h3 := lastIdxOf_append_last '}' ('{' :: inner) h2
    rw [List.cons_append] at h3
    rw [h3]
    simp
  simp only [List.cons_append] at hlast
  simp only [hlast]
  rw [if_pos (by omega)]
  congr 1
  have hlen : ('{' :: (inner ++ ['}'])).length = inner.length + 2 := by simp
  rw [show inner.length + 1 + 1 = inner.length + 2 from rfl, ← hlen]
  simp

/-! ### Round-trip of the restricted `json.loads` on rendered dict
literals -/

/-- `takeWhile` over an append stopped by the right part's head. -/
theorem takeWhile_append_term (p : Char → Bool) (xs rest : List Char)
    (hxs : ∀ x ∈ xs, p x = true)
    (hrest : ∀ c, rest.head? = some c → p c = false) :
    (xs ++ rest).takeWhile p = xs := by
  rw [List.takeWhile_append_of_pos hxs]
  cases rest with
  | nil => simp
  | cons c r =>
    rw [List.takeWhile_cons, hrest c rfl]
    simp

/-- `jsonSkipWs` does not move over a non-whitespace head. -/
theorem jsonSkipWs_cons_not (c : Char) (r : List Char) (h : jsonIsWs c = false) :
    jsonSkipWs (c :: r) = c :: r := by
  unfold jsonSkipWs
  rw [List.dropWhile_cons, h]
  simp

/-- The JSON string scanner stops at the closing quote. -/
theorem jsonStrChars_closed (k rest : List Char)
    (hk : ∀ c ∈ k, c ≠ '"' ∧ c ≠ bslash ∧ ¬(c.toNat < 0x20)) :
    jsonStrChars (k ++ '"' :: rest) = some (k, rest) := by
  induction k with
  | nil => rfl
  | cons c k ih =>
    obtain ⟨h1, h2, h3⟩ := hk c (by simp)
    rw [List.cons_append]
    unfold jsonStrChars
    rw [if_neg h1, if_neg (by simp [h2, h3]), ih (fun x hx => hk x (by simp [hx]))]
    rfl

/-- The fraction scanner does not fire on a terminator head. -/
theorem jsonNumFrac_term (i : Nat) (rest : List Char) (h : numTermOk rest) :
    jsonNumFrac i rest = ((i : ℚ), rest) := by
  cases rest with
  | nil => rfl
  | cons c r =>
    obtain ⟨_, hdot, _, _⟩ := h c rfl
    unfold jsonNumFrac
    split
    · rename_i heq
      rw [List.cons.injEq] at heq
      exact absurd heq.1 hdot
    · rfl

/-- The exponent scanner does not fire on a terminator head. -/
theorem jsonNumExp_term (neg : Bool) (v : ℚ) (rest : List Char)
    (h : numTermOk rest) :
    jsonNumExp neg v rest = some (applySign neg v, rest) := by
  cases rest with
  | nil => rfl
  | cons c r =>
    obtain ⟨_, _, he, hE⟩ := h c rfl
    unfold jsonNumExp
    split
    · rename_i heq
      rw [List.cons.injEq] at heq
      exact absurd heq.1 he
    · rename_i heq
      rw [List.cons.injEq] at heq
      exact absurd heq.1 hE
    · rfl

/-- A number with no fraction or exponent scans to its integer value
and stops at the terminator. -/
theorem jsonNumTail_term (neg : Bool) (i : Nat) (rest : List Char)
    (h : numTermOk rest) :
    jsonNumTail neg i rest = some (applySign neg (i : ℚ), rest) := by
  unfold jsonNumTail
  rw [jsonNumFrac_term i rest h]
  exact jsonNumExp_term neg (i : ℚ) rest h

/-- A dot followed by digits scans to the exact decimal value and
stops at the terminator. -/
theorem jsonNumTail_frac (neg : Bool) (i : Nat) (d2 rest : List Char)
    (hne : d2 ≠ []) (hd : ∀ c ∈ d2, pyIsDigit c = true) (h : numTermOk rest) :
    jsonNumTail neg i ('.' :: (d2 ++ rest)) =
      some (applySign neg (decValue i (natFromDigits d2) d2.length), rest) := by
  unfold jsonNumTail
  have htw : (d2 ++ rest).takeWhile pyIsDigit = d2 :=
    takeWhile_append_term pyIsDigit d2 rest hd (fun c hc => (h c hc).1)
  have hfr : jsonNumFrac i ('.' :: (d2 ++ rest)) =
      (decValue i (natFromDigits d2) d2.length, rest) := by
    unfold jsonNumFrac
    simp only [htw]
    rw [if_neg (by simp [hne])]
    rw [List.drop_left]
  rw [hfr]
  exact jsonNumExp_term neg _ rest h

/-- Character order transfers to code points. -/
theorem char_le_iff_toNat (a b : Char) : a ≤ b ↔ a.toNat ≤ b.toNat := by
  rw [Char.le_def, UInt32.le_def, BitVec.le_def]
  exact Iff.rfl

/-- Character equality transfers to code points. -/
theorem char_eq_iff_toNat (a b : Char) : a = b ↔ a.toNat = b.toNat := by
  constructor
  · intro h
    rw [h]
  · intro h
    exact Char.ext (UInt32.eq_of_toBitVec_eq (BitVec.eq_of_toNat_eq h))

/-- A nonzero decimal digit is in the `[1-9]` class. -/
theorem digit_ne_zero_class (c : Char) (hd : pyIsDigit c = true) (h0 : c ≠ '0') :
    ('1' ≤ c && c ≤ '9') = true := by
  unfold pyIsDigit at hd
  simp only [Bool.and_eq_true, decide_eq_true_eq] at hd ⊢
  obtain ⟨h1, h2⟩ := hd
  refine ⟨?_, h2⟩
  rw [char_le_iff_toNat] at h1 ⊢
  have h48 : ('0').toNat = 48 := by decide
  have h49 : ('1').toNat = 49 := by decide
  have hne : c.toNat ≠ 48 := by
    intro k
    exact h0 ((char_eq_iff_toNat c '0').mpr (by rw [k, h48]))
  omega

/-- Decomposition of a list at the end of its `takeWhile` prefix. -/
theorem takeWhile_append_drop_eq (p : Char → Bool) (l : List Char) :
    l.takeWhile p ++ l.drop (l.takeWhile p).length = l := by
  have h1 : l.takeWhile p = l.take (l.takeWhile p).length :=
    List.prefix_iff_eq_take.mp (List.takeWhile_prefix p)
  exact (congrArg (fun x => x ++ l.drop (l.takeWhile p).length) h1).trans
    (List.take_append_drop _ _)

/-- The first character after the `takeWhile` prefix fails the
predicate. -/
theorem head_drop_takeWhile (p : Char → Bool) (l : List Char) :
    ∀ c, (l.drop (l.takeWhile p).length).head? = some c → p c = false := by
  induction l with
  | nil => intro c hc; simp at hc
  | cons x l ih =>
    intro c hc
    rw [List.takeWhile_cons] at hc
    by_cases hx : p x
    · rw [hx] at hc
      simp only [if_true, List.length_cons, List.drop_succ_cons] at hc
      exact ih c hc
    · rw [Bool.not_eq_true] at hx
      rw [hx] at hc
      simp only [Bool.false_eq_true, if_false, List.length_nil, List.drop_zero,
        List.head?_cons, Option.some.injEq] at hc
      rw [← hc]
      exact hx

/-- Defining equation of `jsonNumberUnsigned` on a cons cell. -/
theorem jsonNumberUnsigned_cons (neg : Bool) (c : Char) (r : List Char) :
    jsonNumberUnsigned neg (c :: r) =
      if c = '0' then jsonNumTail neg 0 r
      else if '1' ≤ c && c ≤ '9' then
        jsonNumTail neg (natFromDigits ((c :: r).takeWhile pyIsDigit))
          ((c :: r).drop ((c :: r).takeWhile pyIsDigit).length)
      else none := rfl

/-- The JSON number scanner on a rendered unsigned decimal literal
followed by a terminator recovers the literal's exact value and stops
at the terminator. -/
theorem jsonNumberUnsigned_decLit (neg : Bool) (v1 rest : List Char) (q : ℚ)
    (hv : decLitUnsigned v1 = some q) (h : numTermOk rest) :
    jsonNumberUnsigned neg (v1 ++ rest) = some (applySign neg q, rest) := by
  have hdec := takeWhile_append_drop_eq pyIsDigit v1
  unfold decLitUnsigned at hv
  set d1 := v1.takeWhile pyIsDigit with hd1
  set restv := v1.drop d1.length with hrv
  by_cases h0 : d1.length = 0
  · rw [if_pos h0] at hv
    exact absurd hv (by simp)
  rw [if_neg h0] at hv
  by_cases hlz : 1 < d1.length ∧ d1.head? = some '0'
  · rw [if_pos hlz] at hv
    exact absurd hv (by simp)
  rw [if_neg hlz] at hv
  have hd1ne : d1 ≠ [] := by
    intro k
    rw [k] at h0
    simp at h0
  have hd1dig : ∀ c ∈ d1, pyIsDigit c = true := by
    intro c hc
    exact List.mem_takeWhile_imp (hd1 ▸ hc)
  obtain ⟨c0, d1t, hc0⟩ := List.exists_cons_of_ne_nil hd1ne
  have hc0dig : pyIsDigit c0 = true := hd1dig c0 (by rw [hc0]; simp)
  have hterm2 : ∀ c, (restv ++ rest).head? = some c → pyIsDigit c = false := by
    intro c hc
    cases hrv2 : restv with
    | nil =>
      rw [hrv2] at hc
      rw [List.nil_append] at hc
      exact (h c hc).1
    | cons a b =>
      rw [hrv2] at hc
      rw [List.cons_append, List.head?_cons] at hc
      have ha : (v1.drop (v1.takeWhile pyIsDigit).length).head? = some a := by
        rw [← hd1, ← hrv, hrv2]
        rfl
      have ha2 := head_drop_takeWhile pyIsDigit v1 a ha
      rw [← Option.some.inj hc]
      exact ha2
  have hsplit : v1 ++ rest = d1 ++ (restv ++ rest) := by
    rw [← List.append_assoc, hdec]
  have htw2 : (v1 ++ rest).takeWhile pyIsDigit = d1 := by
    rw [hsplit]
    exact takeWhile_append_term pyIsDigit d1 (restv ++ rest) hd1dig hterm2
  have hdr2 : (v1 ++ rest).drop ((v1 ++ rest).takeWhile pyIsDigit).length =
      restv ++ rest := by
    rw [htw2, hsplit, List.drop_left]
  have hgoal : jsonNumberUnsigned neg (v1 ++ rest) =
      if c0 = '0' then jsonNumTail neg 0 (d1t ++ (restv ++ rest))
      else if '1' ≤ c0 && c0 ≤ '9' then
        jsonNumTail neg (natFromDigits d1) (restv ++ rest)
      else none := by
    conv_lhs => rw [hsplit, hc0, List.cons_append, jsonNumberUnsigned_cons]
    rw [← List.cons_append, ← hc0, ← hsplit, hdr2, htw2]
  have hfinal : jsonNumTail neg (natFromDigits d1) (restv ++ rest) =
      some (applySign neg q, rest) := by
    cases hrv3 : restv with
    | nil =>
      rw [hrv3] at hv
      have hq : (natFromDigits d1 : ℚ) = q := by
        simpa using hv
      rw [List.nil_append]
      rw [← hq]
      exact jsonNumTail_term neg _ rest h
    | cons a b =>
      rw [hrv3] at hv
      split at hv
      · rename_i heq
        exact absurd heq (by simp)
      · rename_i d2 heq
        injection heq with ha hb
        split at hv
        · rename_i hcond
          simp only [Bool.and_eq_true, Bool.not_eq_true', List.isEmpty_iff] at hcond
          have hq : decValue (natFromDigits d1) (natFromDigits d2) d2.length = q := by
            simpa using hv
          have hd2ne : d2 ≠ [] := by
            intro k
            exact absurd (k ▸ hcond.1) (by simp)
          have hd2dig : ∀ c ∈ d2, pyIsDigit c = true := by
            intro c hc
            exact List.all_eq_true.mp hcond.2 c hc
          rw [ha, hb, List.cons_append]
          rw [← hq]
          exact jsonNumTail_frac neg _ d2 rest hd2ne hd2dig h
        · exact absurd hv (by simp)
      · exact absurd hv (by simp)
  by_cases hc00 : c0 = '0'
  · have hd1t : d1t = [] := by
      by_contra hk
      apply hlz
      constructor
      · rw [hc0]
        cases d1t with
        | nil => exact absurd rfl hk
        | cons x y => simp
      · rw [hc0, hc00]
        rfl
    have hnat : natFromDigits d1 = 0 := by
      rw [hc0, hd1t, hc00]
      rfl
    rw [hgoal, if_pos hc00, hd1t, List.nil_append, ← hnat]
    exact hfinal
  · rw [hgoal, if_neg hc00, if_pos (digit_ne_zero_class c0 hc0dig hc00)]
    exact hfinal

/-- The signed JSON number scanner on a rendered decimal literal. -/
theorem jsonNumber_decLit (v rest : List Char) (q : ℚ)
    (hv : decLit v = some q) (h : numTermOk rest) :
    jsonNumber (v ++ rest) = some (q, rest) := by
  cases v with
  | nil => exact absurd hv (by simp [decLit, decLitUnsigned])
  | cons c v1 =>
    by_cases hc : c = '-'
    · subst hc
      have hv2 : (decLitUnsigned v1).map (fun x => -x) = some q := hv
      rcases hdu : decLitUnsigned v1 with _ | q0
      · rw [hdu] at hv2
        exact absurd hv2 (by simp)
      · rw [hdu] at hv2
        simp only [Option.map_some'] at hv2
        have hq : -q0 = q := Option.some.inj hv2
        rw [List.cons_append]
        have hstep : jsonNumber ('-' :: (v1 ++ rest)) =
            jsonNumberUnsigned true (v1 ++ rest) := rfl
        rw [hstep, jsonNumberUnsigned_decLit true v1 rest q0 hdu h, ← hq]
        rfl
    · have hv2 : decLitUnsigned (c :: v1) = some q := by
        unfold decLit at hv
        split at hv
        · rename_i heq
          injection heq with h1 _
          exact absurd h1 hc
        · exact hv
      have hgoal : jsonNumber (c :: (v1 ++ rest)) =
          jsonNumberUnsigned false (c :: (v1 ++ rest)) := by
        unfold jsonNumber
        split
        · rename_i heq
          injection heq with h1 _
          exact absurd h1 hc
        · rfl
      rw [List.cons_append, hgoal, ← List.cons_append,
        jsonNumberUnsigned_decLit false (c :: v1) rest q hv2 h]
      rfl

/-- A value literal starts with a digit, dot or minus, never a quote
or whitespace. -/
theorem valOk_head (c : Char) (v1 : List Char)
    (hval : valOk (c :: v1) = true) :
    c ≠ '"' ∧ jsonIsWs c = false := by
  have hc := List.all_eq_true.mp hval c (by simp)
  simp only [Bool.or_eq_true, decide_eq_true_eq] at hc
  have hn : 45 ≤ c.toNat ∧ c.toNat ≤ 57 ∧ c.toNat ≠ 47 := by
    rcases hc with (hd | hd) | hd
    · unfold pyIsDigit at hd
      simp only [Bool.and_eq_true, decide_eq_true_eq] at hd
      obtain ⟨h1, h2⟩ := hd
      rw [char_le_iff_toNat] at h1 h2
      have e1 : ('0').toNat = 48 := by decide
      have e2 : ('9').toNat = 57 := by decide
      omega
    · rw [char_eq_iff_toNat] at hd
      have e1 : ('.').toNat = 46 := by decide
      omega
    · rw [char_eq_iff_toNat] at hd
      have e1 : ('-').toNat = 45 := by decide
      omega
  have hq : c ≠ '"' := by
    intro k
    rw [char_eq_iff_toNat] at k
    have e1 : ('"').toNat = 34 := by decide
    omega
  refine ⟨hq, ?_⟩
  have w1 : ¬(c = ' ') := by
    intro k
    rw [char_eq_iff_toNat] at k
    have e1 : (' ').toNat = 32 := by decide
    omega
  have w2 : ¬(c = '\t') := by
    intro k
    rw [char_eq_iff_toNat] at k
    have e1 : ('\t').toNat = 9 := by decide
    omega
  have w3 : ¬(c = '\n') := by
    intro k
    rw [char_eq_iff_toNat] at k
    have e1 : ('\n').toNat = 10 := by decide
    omega
  have w4 : ¬(c = '\r') := by
    intro k
    rw [char_eq_iff_toNat] at k
    have e1 : ('\r').toNat = 13 := by decide
    omega
  simp [jsonIsWs, w1, w2, w3, w4]

/-- The JSON value scanner on a rendered numeric literal. -/
theorem jsonValue_decLit (v rest : List Char) (q : ℚ)
    (hv : decLit v = some q) (hval : valOk v = true) (h : numTermOk rest) :
    jsonValue (v ++ rest) = some (JValue.num q, rest) := by
  cases v with
  | nil => exact absurd hv (by simp [decLit, decLitUnsigned])
  | cons c v1 =>
    obtain ⟨hcq, _⟩ := valOk_head c v1 hval
    rw [List.cons_append]
    unfold jsonValue
    split
    · rename_i heq
      injection heq with h1 _
      exact absurd h1 hcq
    · rw [← List.cons_append, jsonNumber_decLit (c :: v1) rest q hv h]
      rfl


/-- `keyOk` gives the character-level facts `jsonStrChars` needs. -/
theorem keyOk_chars (k : List Char) (hk : keyOk k = true) :
    ∀ c ∈ k, c ≠ '"' ∧ c ≠ bslash ∧ ¬(c.toNat < 0x20) := by
  intro c hc
  have h := List.all_eq_true.mp hk c hc
  simp only [Bool.not_eq_true', Bool.or_eq_false_iff, decide_eq_false_iff_not] at h
  exact ⟨h.1.1.1.1, h.1.1.2, h.2⟩

/-- Skipping one leading space does not change the members scanner. -/
theorem jsonMembersAux_ws (fuel : Nat) (acc : List (String × JValue)) (s : List Char) :
    jsonMembersAux (fuel + 1) acc (' ' :: s) = jsonMembersAux (fuel + 1) acc s := rfl

/-- Python dict insertion of a fresh key appends it. -/
theorem insertUpdate_append (acc : List (String × JValue)) (k : String) (v : JValue)
    (h : ∀ kv ∈ acc, kv.1 ≠ k) :
    insertUpdate acc k v = acc ++ [(k, v)] := by
  induction acc with
  | nil => rfl
  | cons kv0 rest ih =>
    obtain ⟨k0, v0⟩ := kv0
    have hne : k0 ≠ k := h (k0, v0) (by simp)
    unfold insertUpdate
    rw [if_neg hne, ih (fun kv hkv => h kv (by simp [hkv]))]
    rfl

/-- The members scanner on one rendered member followed by the closing
brace: it consumes the member and returns the updated accumulator. -/
theorem jsonMembersAux_member_brace (fuel : Nat) (acc : List (String × JValue))
    (k v tail : List Char) (q : ℚ)
    (hk : keyOk k = true) (hv : decLit v = some q) (hval : valOk v = true)
    (hvne : v ≠ []) :
    jsonMembersAux (fuel + 1) acc ('"' :: k ++ '"' :: ':' :: ' ' :: v ++ '}' :: tail) =
      some (insertUpdate acc (String.mk k) (JValue.num q), tail) := by
  obtain ⟨c, v1, rfl⟩ := List.exists_cons_of_ne_nil hvne
  obtain ⟨hcq, hcw⟩ := valOk_head c v1 hval
  have hC : numTermOk ('}' :: tail) := by
    intro x hx
    simp only [List.head?_cons, Option.some.injEq] at hx
    subst hx
    decide
  simp only [List.cons_append, List.append_assoc]
  simp only [jsonMembersAux]
  rw [jsonSkipWs_cons_not '"' _ (by decide)]
  split
  · rename_i r heq
    injection heq with h1 h2
    subst h2
    rw [jsonStrChars_closed k (':' :: ' ' :: c :: (v1 ++ '}' :: tail)) (keyOk_chars k hk)]
    split
    · rename_i heq2
      exact absurd heq2 (by simp)
    · rename_i k2 r2 heq2
      injection heq2 with hpair
      rw [Prod.mk.injEq] at hpair
      obtain ⟨hk2, hr2⟩ := hpair
      subst hk2
      subst hr2
      rw [jsonSkipWs_cons_not ':' _ (by decide)]
      split
      · rename_i r3 heq3
        injection heq3 with h31 h32
        subst h32
        rw [show jsonSkipWs (' ' :: c :: (v1 ++ '}' :: tail)) =
            jsonSkipWs (c :: (v1 ++ '}' :: tail)) from rfl]
        rw [jsonSkipWs_cons_not c _ hcw]
        rw [← List.cons_append, jsonValue_decLit (c :: v1) ('}' :: tail) q hv hval hC]
        split
        · rename_i heq4
          exact absurd heq4 (by simp)
        · rename_i vv r4 heq4
          injection heq4 with hpair4
          rw [Prod.mk.injEq] at hpair4
          obtain ⟨hv4, hr4⟩ := hpair4
          subst hv4
          subst hr4
          rw [jsonSkipWs_cons_not '}' _ (by decide)]
          split
          · rename_i r5 heq5
            exact absurd heq5 (by simp)
          · rename_i r5 heq5
            injection heq5 with h51 h52
            subst h52
            rfl
          · rename_i hne5a hne5b
            exact absurd rfl (by intro hcon; exact hne5b tail hcon)
      · rename_i hne3
        exact absurd rfl (by intro hcon; exact hne3 (' ' :: c :: (v1 ++ '}' :: tail)) hcon)
  · rename_i hne2
    exact absurd rfl
      (by intro hcon; exact hne2 (k ++ '"' :: ':' :: ' ' :: c :: (v1 ++ '}' :: tail)) hcon)

/-- The members scanner on one rendered member followed by a comma: it
consumes the member and recurses on the rest with one unit less fuel. -/
theorem jsonMembersAux_member_comma (fuel : Nat) (acc : List (String × JValue))
    (k v Y : List Char) (q : ℚ)
    (hk : keyOk k = true) (hv : decLit v = some q) (hval : valOk v = true)
    (hvne : v ≠ []) :
    jsonMembersAux (fuel + 1) acc ('"' :: k ++ '"' :: ':' :: ' ' :: v ++ ',' :: Y) =
      jsonMembersAux fuel (insertUpdate acc (String.mk k) (JValue.num q)) Y := by
  obtain ⟨c, v1, rfl⟩ := List.exists_cons_of_ne_nil hvne
  obtain ⟨hcq, hcw⟩ := valOk_head c v1 hval
  have hC : numTermOk (',' :: Y) := by
    intro x hx
    simp only [List.head?_cons, Option.some.injEq] at hx
    subst hx
    decide
  simp only [List.cons_append, List.append_assoc]
  simp only [jsonMembersAux]
  rw [jsonSkipWs_cons_not '"' _ (by decide)]
  split
  · rename_i r heq
    injection heq with h1 h2
    subst h2
    rw [jsonStrChars_closed k (':' :: ' ' :: c :: (v1 ++ ',' :: Y)) (keyOk_chars k hk)]
    split
    · rename_i heq2
      exact absurd heq2 (by simp)
    · rename_i k2 r2 heq2
      injection heq2 with hpair
      rw [Prod.mk.injEq] at hpair
      obtain ⟨hk2, hr2⟩ := hpair
      subst hk2
      subst hr2
      rw [jsonSkipWs_cons_not ':' _ (by decide)]
      split
      · rename_i r3 heq3
        injection heq3 with h31 h32
        subst h32
        rw [show jsonSkipWs (' ' :: c :: (v1 ++ ',' :: Y)) =
            jsonSkipWs (c :: (v1 ++ ',' :: Y)) from rfl]
        rw [jsonSkipWs_cons_not c _ hcw]
        rw [← List.cons_append, jsonValue_decLit (c :: v1) (',' :: Y) q hv hval hC]
        split
        · rename_i heq4
          exact absurd heq4 (by simp)
        · rename_i vv r4 heq4
          injection heq4 with hpair4
          rw [Prod.mk.injEq] at hpair4
          obtain ⟨hv4, hr4⟩ := hpair4
          subst hv4
          subst hr4
          rw [jsonSkipWs_cons_not ',' _ (by decide)]
          split
          · rename_i r5 heq5
            injection heq5 with h51 h52
            subst h52
            rfl
          · rename_i r5 heq5
            exact absurd heq5 (by simp)
          · rename_i hne5a hne5b
            exact absurd rfl (by intro hcon; exact hne5a Y hcon)
      · rename_i hne3
        exact absurd rfl (by intro hcon; exact hne3 (' ' :: c :: (v1 ++ ',' :: Y)) hcon)
  · rename_i hne2
    exact absurd rfl
      (by intro hcon; exact hne2 (k ++ '"' :: ':' :: ' ' :: c :: (v1 ++ ',' :: Y)) hcon)

/-- Each rendered member is nonempty, so the replaced member list is
at least as long as the pair list, up to one. -/
theorem membersRenderJ_length (pairs : List (List Char × List Char)) :
    pairs.length ≤ (membersRenderJ pairs).length + 1 := by
  induction pairs with
  | nil => simp [membersRenderJ]
  | cons p rest ih =>
    cases rest with
    | nil =>
      simp only [membersRenderJ, List.length_cons, List.length_nil]
      omega
    | cons p2 r2 =>
      have h1 : membersRenderJ (p :: p2 :: r2) =
          memRenderJ p ++ ',' :: ' ' :: membersRenderJ (p2 :: r2) := rfl
      rw [h1]
      simp only [List.length_cons, List.length_append] at *
      omega

/-- The pair a rendered member recovers, given its decoded value. -/
theorem pairVal_eq (p : List Char × List Char) (q : ℚ) (hv : decLit p.2 = some q) :
    pairVal p = (String.mk p.1, JValue.num q) := by
  unfold pairVal
  rw [hv]
  rfl

/-- The members scanner consumes the whole rendered member list and
returns the accumulated pairs in order. -/
theorem jsonMembersAux_renderJ (pairs : List (List Char × List Char)) :
    ∀ (fuel : Nat) (acc : List (String × JValue)) (tail : List Char),
      pairs ≠ [] →
      pairs.length ≤ fuel + 1 →
      (∀ p ∈ pairs, keyOk p.1 = true ∧ valOk p.2 = true ∧
        (decLit p.2).isSome ∧ p.2 ≠ []) →
      (pairs.map (fun p => String.mk p.1)).Nodup →
      (∀ p ∈ pairs, ∀ kv ∈ acc, kv.1 ≠ String.mk p.1) →
      jsonMembersAux (fuel + 1) acc (membersRenderJ pairs ++ '}' :: tail) =
        some (acc ++ pairs.map pairVal, tail) := by
  induction pairs with
  | nil =>
    intro _ _ _ hne _ _ _ _
    exact absurd rfl hne
  | cons p rest ih =>
    intro fuel acc tail _ hfuel hpairs hnodup hacc
    obtain ⟨hk, hval, hsome, hvne⟩ := hpairs p (by simp)
    obtain ⟨q, hq⟩ := Option.isSome_iff_exists.mp hsome
    have hins : insertUpdate acc (String.mk p.1) (JValue.num q) = acc ++ [pairVal p] := by
      rw [insertUpdate_append acc _ _ (hacc p (by simp)), pairVal_eq p q hq]
    cases rest with
    | nil =>
      have hm : membersRenderJ [p] ++ '}' :: tail =
          '"' :: p.1 ++ '"' :: ':' :: ' ' :: p.2 ++ '}' :: tail := rfl
      rw [hm, jsonMembersAux_member_brace fuel acc p.1 p.2 tail q hk hq hval hvne, hins]
      rfl
    | cons p2 r2 =>
      cases fuel with
      | zero =>
        exfalso
        simp only [List.length_cons] at hfuel
        omega
      | succ fuel2 =>
        have hm : membersRenderJ (p :: p2 :: r2) ++ '}' :: tail =
            '"' :: p.1 ++ '"' :: ':' :: ' ' :: p.2 ++
              ',' :: (' ' :: (membersRenderJ (p2 :: r2) ++ '}' :: tail)) := by
          simp only [membersRenderJ, memRenderJ, List.cons_append, List.append_assoc]
        rw [hm,
          jsonMembersAux_member_comma (fuel2 + 1) acc p.1 p.2 _ q hk hq hval hvne,
          hins, jsonMembersAux_ws fuel2 _ _,
          ih fuel2 (acc ++ [pairVal p]) tail (by simp) ?hf ?hp ?hn ?ha]
        · simp [List.append_assoc]
        case hf =>
          simp only [List.length_cons] at hfuel ⊢
          omega
        case hp =>
          intro p2 hp2
          exact hpairs p2 (by simp [hp2])
        case hn =>
          rw [List.map_cons] at hnodup
          exact (List.nodup_cons.mp hnodup).2
        case ha =>
          intro p3 hp3 kv hkv
          rcases List.mem_append.mp hkv with hkv | hkv
          · exact hacc p3 (by simp [hp3]) kv hkv
          · have hkveq : kv = pairVal p := by simpa using hkv
            subst hkveq
            have hnm : String.mk p.1 ∉ (p2 :: r2).map (fun x => String.mk x.1) := by
              rw [List.map_cons] at hnodup
              exact (List.nodup_cons.mp hnodup).1
            rw [pairVal_eq p q hq]
            intro hcon
            apply hnm
            rw [show String.mk p.1 = String.mk p3.1 from hcon]
            exact List.mem_map_of_mem _ hp3

/-- `json.loads` on the replaced rendered dict literal returns exactly
the rendered pairs. -/
theorem jsonLoadsObj_renderJ (pairs : List (List Char × List Char))
    (hpairs : ∀ p ∈ pairs, keyOk p.1 = true ∧ valOk p.2 = true ∧
      (decLit p.2).isSome ∧ p.2 ≠ [])
    (hnodup : (pairs.map (fun p => String.mk p.1)).Nodup) :
    jsonLoadsObj ('{' :: membersRenderJ pairs ++ ['}']) = some (pairs.map pairVal) := by
  cases pairs with
  | nil => rfl
  | cons p rest =>
    have hT : ∃ T, membersRenderJ (p :: rest) = '"' :: T := by
      cases rest with
      | nil => exact ⟨p.1 ++ '"' :: ':' :: ' ' :: p.2, rfl⟩
      | cons p2 r2 =>
        refine ⟨p.1 ++ ('"' :: ':' :: ' ' :: p.2 ++ ',' :: ' ' :: membersRenderJ (p2 :: r2)), ?_⟩
        simp only [membersRenderJ, memRenderJ, List.cons_append, List.append_assoc]
    obtain ⟨T, hT⟩ := hT
    have hlen := membersRenderJ_length (p :: rest)
    unfold jsonLoadsObj
    rw [List.cons_append, jsonSkipWs_cons_not '{' _ (by decide)]
    split
    · rename_i r heq
      injection heq with h1 h2
      subst h2
      split
      · rename_i r2 heq2
        rw [hT, List.cons_append, jsonSkipWs_cons_not '"' _ (by decide)] at heq2
        exact absurd heq2 (by simp)
      · rw [jsonMembersAux_renderJ (p :: rest) ((membersRenderJ (p :: rest) ++ ['}']).length)
          [] [] (by simp) ?hf hpairs hnodup (by simp)]
        · simp [jsonSkipWs]
        case hf =>
          simp only [List.length_append, List.length_cons, List.length_nil]
          simp only [List.length_cons] at hlen
          omega
    · rename_i hne2
      exact absurd rfl
        (by intro hcon; exact hne2 (membersRenderJ (p :: rest) ++ ['}']) hcon)

/-- Characters of a renderable key: not quote, apostrophe, backslash,
closing brace or control character. -/
theorem keyOk_char_facts (k : List Char) (hk : keyOk k = true) :
    ∀ c ∈ k, c ≠ '"' ∧ c ≠ squote ∧ c ≠ bslash ∧ c ≠ '}' ∧ ¬(c.toNat < 0x20) := by
  intro c hc
  have h := List.all_eq_true.mp hk c hc
  simp only [Bool.not_eq_true', Bool.or_eq_false_iff, decide_eq_false_iff_not] at h
  exact ⟨h.1.1.1.1, h.1.1.1.2, h.1.1.2, h.1.2, h.2⟩

/-- Characters of a value literal lie in the code-point range of
digits, dot and minus. -/
theorem valOk_char_toNat (v : List Char) (hv : valOk v = true) :
    ∀ c ∈ v, 45 ≤ c.toNat ∧ c.toNat ≤ 57 ∧ c.toNat ≠ 47 := by
  intro c hc
  have h := List.all_eq_true.mp hv c hc
  simp only [Bool.or_eq_true, decide_eq_true_eq] at h
  rcases h with (hd | hd) | hd
  · unfold pyIsDigit at hd
    simp only [Bool.and_eq_true, decide_eq_true_eq] at hd
    obtain ⟨h1, h2⟩ := hd
    rw [char_le_iff_toNat] at h1 h2
    have e1 : ('0').toNat = 48 := by decide
    have e2 : ('9').toNat = 57 := by decide
    omega
  · rw [char_eq_iff_toNat] at hd
    have e1 : ('.').toNat = 46 := by decide
    omega
  · rw [char_eq_iff_toNat] at hd
    have e1 : ('-').toNat = 45 := by decide
    omega

/-- A character-level property closed under the separator characters
holds of every character of the rendered members. -/
theorem membersRender_chars (P : Char → Prop)
    (hsq : P squote) (hcolon : P ':') (hsp : P ' ') (hcomma : P ',') :
    ∀ (pairs : List (List Char × List Char)),
      (∀ p ∈ pairs, (∀ c ∈ p.1, P c) ∧ (∀ c ∈ p.2, P c)) →
      ∀ c ∈ membersRender pairs, P c := by
  intro pairs
  induction pairs with
  | nil =>
    intro _ c hc
    simp [membersRender] at hc
  | cons p rest ih =>
    intro hp c hc
    have hmem : ∀ c ∈ memRender p, P c := by
      intro c hc
      unfold memRender at hc
      rcases List.mem_append.mp hc with hc1 | hc1
      · rcases List.mem_cons.mp hc1 with hc2 | hc2
        · subst hc2; exact hsq
        · exact (hp p (by simp)).1 c hc2
      · rcases List.mem_cons.mp hc1 with hc2 | hc2
        · subst hc2; exact hsq
        · rcases List.mem_cons.mp hc2 with hc3 | hc3
          · subst hc3; exact hcolon
          · rcases List.mem_cons.mp hc3 with hc4 | hc4
            · subst hc4; exact hsp
            · exact (hp p (by simp)).2 c hc4
    cases rest with
    | nil => exact hmem c hc
    | cons p2 r2 =>
      have he : membersRender (p :: p2 :: r2) =
          memRender p ++ ',' :: ' ' :: membersRender (p2 :: r2) := rfl
      rw [he] at hc
      rcases List.mem_append.mp hc with hc1 | hc1
      · exact hmem c hc1
      · rcases List.mem_cons.mp hc1 with hc2 | hc2
        · subst hc2; exact hcomma
        · rcases List.mem_cons.mp hc2 with hc3 | hc3
          · subst hc3; exact hsp
          · exact ih (fun p3 hp3 => hp p3 (by simp [hp3])) c hc3

/-- The rendered members contain no newline and no closing brace. -/
theorem membersRender_no_nl_brace (pairs : List (List Char × List Char))
    (hpairs : ∀ p ∈ pairs, keyOk p.1 = true ∧ valOk p.2 = true) :
    '\n' ∉ membersRender pairs ∧ '}' ∉ membersRender pairs := by
  have h := membersRender_chars (fun c => c ≠ '\n' ∧ c ≠ '}')
    (by decide) (by decide) (by decide) (by decide) pairs ?hp
  refine ⟨fun hc => (h '\n' hc).1 rfl, fun hc => (h '}' hc).2 rfl⟩
  case hp =>
    intro p hp
    refine ⟨?_, ?_⟩
    · intro c hc
      obtain ⟨h1, h2, h3, h4, h5⟩ := keyOk_char_facts p.1 (hpairs p hp).1 c hc
      refine ⟨?_, h4⟩
      intro hcon
      subst hcon
      exact h5 (by decide)
    · intro c hc
      obtain ⟨h1, h2, h3⟩ := valOk_char_toNat p.2 (hpairs p hp).2 c hc
      have e1 : ('\n').toNat = 10 := by decide
      have e2 : ('}').toNat = 125 := by decide
      refine ⟨?_, ?_⟩ <;>
        · intro hcon
          rw [char_eq_iff_toNat] at hcon
          omega

/-- The quote replacement is the identity on apostrophe-free text. -/
theorem map_repl_id (xs : List Char) (h : ∀ c ∈ xs, c ≠ squote) :
    xs.map (fun c => if c = squote then '"' else c) = xs := by
  induction xs with
  | nil => rfl
  | cons c r ih =>
    rw [List.map_cons, if_neg (h c (by simp)), ih (fun x hx => h x (by simp [hx]))]

/-- The quote replacement turns a rendered member into its
double-quoted form. -/
theorem memRender_repl (p : List Char × List Char)
    (hk : keyOk p.1 = true) (hv2 : valOk p.2 = true) :
    (memRender p).map (fun c => if c = squote then '"' else c) = memRenderJ p := by
  have hkey : ∀ c ∈ p.1, c ≠ squote := fun c hc => (keyOk_char_facts p.1 hk c hc).2.1
  have hval : ∀ c ∈ p.2, c ≠ squote := by
    intro c hc
    obtain ⟨h1, h2, _⟩ := valOk_char_toNat p.2 hv2 c hc
    intro hcon
    rw [char_eq_iff_toNat] at hcon
    have e1 : squote.toNat = 39 := by decide
    omega
  unfold memRender memRenderJ
  simp only [List.map_append, List.map_cons]
  rw [map_repl_id p.1 hkey, map_repl_id p.2 hval, if_pos trivial,
    if_neg (show ¬(':' = squote) by decide), if_neg (show ¬(' ' = squote) by decide)]

/-- The quote replacement turns the rendered members into their
double-quoted form. -/
theorem membersRender_repl (pairs : List (List Char × List Char))
    (hpairs : ∀ p ∈ pairs, keyOk p.1 = true ∧ valOk p.2 = true) :
    (membersRender pairs).map (fun c => if c = squote then '"' else c) =
      membersRenderJ pairs := by
  induction pairs with
  | nil => rfl
  | cons p rest ih =>
    cases rest with
    | nil => exact memRender_repl p (hpairs p (by simp)).1 (hpairs p (by simp)).2
    | cons p2 r2 =>
      have he : membersRender (p :: p2 :: r2) =
          memRender p ++ ',' :: ' ' :: membersRender (p2 :: r2) := rfl
      have heJ : membersRenderJ (p :: p2 :: r2) =
          memRenderJ p ++ ',' :: ' ' :: membersRenderJ (p2 :: r2) := rfl
      rw [he, heJ, List.map_append,
        memRender_repl p (hpairs p (by simp)).1 (hpairs p (by simp)).2,
        List.map_cons, List.map_cons, ih (fun p3 hp3 => hpairs p3 (by simp [hp3])),
        if_neg (show ¬(',' = squote) by decide), if_neg (show ¬(' ' = squote) by decide)]

/-- `rewardSearch` succeeds wherever one try does, at a cons. -/
theorem rewardSearch_of_try (s g : List Char) (c : Char) (r : List Char)
    (hs : s = c :: r) (h : rewardTry s = some g) : rewardSearch s = some g := by
  subst hs
  rw [rewardSearch_cons, h]

/-- The reward stage of `parse` on a rendered stdout: the search finds
the rendered dict literal and `json.loads` decodes it to the rendered
pairs. -/
theorem rewardStage_render (best R2 : List Char) (pairs : List (List Char × List Char))
    (hpairs : ∀ p ∈ pairs, keyOk p.1 = true ∧ valOk p.2 = true ∧
      (decLit p.2).isSome ∧ p.2 ≠ [])
    (hnodup : (pairs.map (fun p => String.mk p.1)).Nodup)
    (hrw : containsSub rewardLit ((bestLit ++ ' ' :: best) ++ ['\n']) = false) :
    rewardStage (((bestLit ++ ' ' :: best) ++ ['\n']) ++
        (rewardLit ++ (' ' :: ('{' :: (membersRender pairs ++ ['}'])) ++ ('\n' :: R2)))) =
      .ok (pairs.map pairVal) := by
  have hnb := membersRender_no_nl_brace pairs
    (fun p hp => ⟨(hpairs p hp).1, (hpairs p hp).2.1⟩)
  have htry := rewardTry_here (membersRender pairs) R2 hnb.1 hnb.2
  unfold rewardStage
  rw [rewardSearch_skip ((bestLit ++ ' ' :: best) ++ ['\n'])
      (rewardLit ++ (' ' :: ('{' :: (membersRender pairs ++ ['}'])) ++ ('\n' :: R2)))
      (noPrefixAt_of_newline_end rewardLit (bestLit ++ ' ' :: best) _
        (by decide) (by decide) hrw),
    rewardSearch_of_try
      (rewardLit ++ (' ' :: ('{' :: (membersRender pairs ++ ['}'])) ++ ('\n' :: R2)))
      ('{' :: (membersRender pairs ++ ['}'])) 'R'
      (String.toList "eward break-down:" ++
        ((' ' :: ('{' :: (membersRender pairs ++ ['}']))) ++ ('\n' :: R2)))
      rfl htry]
  have hmap : ('{' :: (membersRender pairs ++ ['}'])).map
        (fun c => if c = squote then '"' else c) =
      '{' :: (membersRenderJ pairs ++ ['}']) := by
    simp only [List.map_cons, List.map_append, List.map_nil]
    rw [membersRender_repl pairs (fun p hp => ⟨(hpairs p hp).1, (hpairs p hp).2.1⟩),
      if_neg (show ¬('{' = squote) by decide), if_neg (show ¬('}' = squote) by decide)]
  split
  · rename_i heq
    exact absurd heq (by simp)
  · rename_i g2 heq
    injection heq with hg
    subst hg
    rw [hmap, ← List.cons_append,
      jsonLoadsObj_renderJ pairs hpairs hnodup]

/-- `firstOccIdx` finds an occurrence at the start. -/
theorem firstOccIdx_here (pat Y : List Char) (hne : pat ≠ []) :
    firstOccIdx pat (pat ++ Y) = some 0 := by
  cases pat with
  | nil => exact absurd rfl hne
  | cons a b =>
    rw [List.cons_append, firstOccIdx_cons, if_pos ?hp]
    case hp =>
      exact List.isPrefixOf_iff_prefix.mpr (List.prefix_append (a :: b) Y)

/-- `firstOccIdx` passes over a region with no occurrence start. -/
theorem firstOccIdx_skip (pat X Y : List Char)
    (h : ∀ i < X.length, ¬ pat.isPrefixOf ((X ++ Y).drop i)) :
    firstOccIdx pat (X ++ Y) = (firstOccIdx pat Y).map (· + X.length) := by
  induction X with
  | nil =>
    simp only [List.nil_append, List.length_nil]
    cases firstOccIdx pat Y with
    | none => rfl
    | some q => simp
  | cons c X ih =>
    have h0 : ¬ pat.isPrefixOf (c :: (X ++ Y)) := by
      have := h 0 (by simp)
      simpa using this
    rw [List.cons_append, firstOccIdx_cons, if_neg h0,
      ih (fun i hi hpre => h (i + 1) (by simp only [List.length_cons]; omega) hpre)]
    cases firstOccIdx pat Y with
    | none => rfl
    | some q =>
      simp only [Option.map_some', List.length_cons, Option.some.injEq]
      omega

/-- No occurrence of a pattern can start at a position of a list that
misses the pattern's first character. -/
theorem noPrefixAt_of_head_notin (pat l Z : List Char) (c0 : Char)
    (hpat : pat.head? = some c0) (hnotin : c0 ∉ l) :
    ∀ i < l.length, ¬ pat.isPrefixOf ((l ++ Z).drop i) := by
  intro i hi hpre
  rw [List.drop_append_of_le_length (Nat.le_of_lt hi)] at hpre
  have hne : l.drop i ≠ [] := by
    intro hcon
    have := List.drop_eq_nil_iff.mp hcon
    omega
  obtain ⟨x, t, hxt⟩ := List.exists_cons_of_ne_nil hne
  cases pat with
  | nil => simp at hpat
  | cons p0 pt =>
    have hp0 : p0 = c0 := by simpa using hpat
    subst hp0
    rw [hxt, List.cons_append, List.isPrefixOf_iff_prefix, List.cons_prefix_cons] at hpre
    have hx : x ∈ l := by
      have : x ∈ l.drop i := by rw [hxt]; simp
      exact List.mem_of_mem_drop this
    exact hnotin (hpre.1 ▸ hx)

/-- `pySplitlinesAux` consumes one newline-terminated line of plain
characters. -/
theorem pySplitlinesAux_push (l : List Char) (hl : ∀ c ∈ l, pyIsLineBreak c = false) :
    ∀ (cur B : List Char),
      pySplitlinesAux false cur (l ++ '\n' :: B) =
        (cur.reverse ++ l) :: pySplitlinesAux false [] B := by
  induction l with
  | nil =>
    intro cur B
    rw [List.nil_append]
    simp only [pySplitlinesAux]
    rw [if_neg (by simp), if_pos (by decide)]
    simp
  | cons c l ih =>
    intro cur B
    have hc := hl c (by simp)
    rw [List.cons_append]
    simp only [pySplitlinesAux]
    rw [if_neg (by simp), if_neg (by simp [hc]),
      ih (fun x hx => hl x (by simp [hx])) (c :: cur) B]
    simp

/-- `pySplitlinesAux` on a final line without boundaries. -/
theorem pySplitlinesAux_last (l : List Char) (hl : ∀ c ∈ l, pyIsLineBreak c = false) :
    ∀ cur : List Char,
      pySplitlinesAux false cur l =
        if (cur.reverse ++ l).isEmpty then [] else [cur.reverse ++ l] := by
  induction l with
  | nil =>
    intro cur
    simp only [pySplitlinesAux]
    simp [List.isEmpty_iff]
  | cons c l ih =>
    intro cur
    have hc := hl c (by simp)
    simp only [pySplitlinesAux]
    rw [if_neg (by simp), if_neg (by simp [hc]),
      ih (fun x hx => hl x (by simp [hx])) (c :: cur)]
    simp

/-- `splitlines` of a plain nonempty line is that line. -/
theorem pySplitlines_single (l : List Char) (hne : l ≠ [])
    (hl : ∀ c ∈ l, pyIsLineBreak c = false) :
    pySplitlines l = [l] := by
  unfold pySplitlines
  rw [pySplitlinesAux_last l hl []]
  simp [hne]

/-- `splitlines` detaches a leading newline-terminated plain line. -/
theorem pySplitlines_cons (l B : List Char) (hl : ∀ c ∈ l, pyIsLineBreak c = false) :
    pySplitlines (l ++ '\n' :: B) = l :: pySplitlines B := by
  unfold pySplitlines
  rw [pySplitlinesAux_push l hl [] B]
  simp

/-- On the newline-joined rendered lines followed by the terminating
blank line, the first `\n\n` occurrence marks the end of the block and
splitting the block recovers the lines. -/
theorem topBody_firstOcc (lines : List (List Char)) :
    lines ≠ [] →
    (∀ l ∈ lines, l ≠ [] ∧ ∀ c ∈ l, pyIsLineBreak c = false) →
    ∃ q, firstOccIdx nnLit ((lines.map (fun l => l ++ ['\n'])).flatten ++ ['\n']) = some q ∧
      pySplitlines (((lines.map (fun l => l ++ ['\n'])).flatten ++ ['\n']).take q) = lines := by
  induction lines with
  | nil => intro hne _; exact absurd rfl hne
  | cons l rest ih =>
    intro _ hl
    obtain ⟨hlne, hlnb⟩ := hl l (by simp)
    have hnotin : '\n' ∉ l := by
      intro hc
      have := hlnb '\n' hc
      exact absurd this (by decide)
    cases rest with
    | nil =>
      refine ⟨l.length, ?_, ?_⟩
      · have hsh : ((([l]).map (fun l => l ++ ['\n'])).flatten ++ ['\n']) =
            l ++ ['\n', '\n'] := by simp
        rw [hsh, firstOccIdx_skip nnLit l ['\n', '\n']
          (noPrefixAt_of_head_notin nnLit l ['\n', '\n'] '\n' rfl hnotin),
          show firstOccIdx nnLit ['\n', '\n'] = some 0 from rfl]
        simp
      · have hsh : ((([l]).map (fun l => l ++ ['\n'])).flatten ++ ['\n']) =
            l ++ ['\n', '\n'] := by simp
        rw [hsh, List.take_left]
        exact pySplitlines_single l hlne hlnb
    | cons l2 r2 =>
      obtain ⟨q, hq, hsp⟩ := ih (by simp) (fun x hx => hl x (by simp [hx]))
      obtain ⟨hl2ne, hl2nb⟩ := hl l2 (by simp)
      obtain ⟨c2, t2, hc2t2⟩ := List.exists_cons_of_ne_nil hl2ne
      have hc2 : c2 ≠ '\n' := by
        intro hcon
        have := hl2nb c2 (by rw [hc2t2]; simp)
        rw [hcon] at this
        exact absurd this (by decide)
      have hbody : ∃ T, ((l2 :: r2).map (fun l => l ++ ['\n'])).flatten ++ ['\n'] =
          c2 :: T := by
        refine ⟨(t2 ++ ['\n']) ++ ((r2.map (fun l => l ++ ['\n'])).flatten ++ ['\n']), ?_⟩
        rw [List.map_cons, List.flatten_cons, hc2t2]
        simp
      obtain ⟨T, hT⟩ := hbody
      have hsh : (((l :: l2 :: r2).map (fun l => l ++ ['\n'])).flatten ++ ['\n']) =
          (l ++ ['\n']) ++ (((l2 :: r2).map (fun l => l ++ ['\n'])).flatten ++ ['\n']) := by
        simp
      refine ⟨q + (l ++ ['\n']).length, ?_, ?_⟩
      · rw [hsh, firstOccIdx_skip nnLit (l ++ ['\n']) _ ?noocc, hq]
        rfl
        case noocc =>
          intro i hi hpre
          rcases Nat.lt_or_ge i l.length with hlt | hge
          · exact noPrefixAt_of_head_notin nnLit l
              ('\n' :: (((l2 :: r2).map (fun l => l ++ ['\n'])).flatten ++ ['\n'])) '\n'
              rfl hnotin i hlt (by simpa using hpre)
          · have hieq : i = l.length := by
              simp only [List.length_append, List.length_cons, List.length_nil] at hi
              omega
            subst hieq
            rw [show ((l ++ ['\n']) ++ (((l2 :: r2).map (fun l => l ++ ['\n'])).flatten ++ ['\n'])) =
                l ++ ('\n' :: (((l2 :: r2).map (fun l => l ++ ['\n'])).flatten ++ ['\n']))
              from by simp, List.drop_left] at hpre
            rw [hT] at hpre
            rw [List.isPrefixOf_iff_prefix] at hpre
            have h2 := (List.cons_prefix_cons.mp hpre).2
            have h3 := (List.cons_prefix_cons.mp h2).1
            exact hc2 h3.symm
      · rw [hsh, Nat.add_comm, List.take_append]
        rw [show (l ++ ['\n']) ++ ((((l2 :: r2).map (fun l => l ++ ['\n'])).flatten ++ ['\n']).take q) =
            l ++ '\n' :: ((((l2 :: r2).map (fun l => l ++ ['\n'])).flatten ++ ['\n']).take q)
          from by simp, pySplitlines_cons l _ hlnb, hsp]

/-- The top-relations stage on a rendered stdout: the lazy group is
the newline-joined relation lines, and splitting it recovers them. -/
theorem topSearch_render (W : List Char) (lines : List (List Char))
    (hW : containsSub topLit (W ++ ['\n']) = false)
    (hlines : ∀ l ∈ lines, l ≠ [] ∧ (∀ c ∈ l, pyIsLineBreak c = false) ∧
      (∀ x, l.head? = some x → pyIsSpace x = false)) :
    ∃ blk, topSearch ((W ++ ['\n']) ++
        (topLit ++ '\n' :: ((lines.map (fun l => l ++ ['\n'])).flatten ++ ['\n']))) = some blk ∧
      pySplitlines blk = lines := by
  have hnp := noPrefixAt_of_newline_end topLit W
    (topLit ++ '\n' :: ((lines.map (fun l => l ++ ['\n'])).flatten ++ ['\n']))
    (by decide) (by decide) hW
  cases lines with
  | nil =>
    refine ⟨[], ?_, rfl⟩
    unfold topSearch
    rw [splitOnFirst_exact topLit (W ++ ['\n'])
      ('\n' :: (((List.map (fun l => l ++ ['\n']) [])).flatten ++ ['\n'])) (by decide) hnp]
    rfl
  | cons l1 rest =>
    obtain ⟨q, hq, hsp⟩ := topBody_firstOcc (l1 :: rest) (by simp)
      (fun l hl => ⟨(hlines l hl).1, (hlines l hl).2.1⟩)
    obtain ⟨hl1ne, hl1nb, hl1hd⟩ := hlines l1 (by simp)
    obtain ⟨c1, t1, hc1t1⟩ := List.exists_cons_of_ne_nil hl1ne
    have hc1 : pyIsSpace c1 = false := hl1hd c1 (by rw [hc1t1]; rfl)
    have hbody : ∃ T, ((l1 :: rest).map (fun l => l ++ ['\n'])).flatten ++ ['\n'] =
        c1 :: T := by
      refine ⟨(t1 ++ ['\n']) ++ ((rest.map (fun l => l ++ ['\n'])).flatten ++ ['\n']), ?_⟩
      rw [List.map_cons, List.flatten_cons, hc1t1]
      simp
    obtain ⟨T, hT⟩ := hbody
    refine ⟨(((l1 :: rest).map (fun l => l ++ ['\n'])).flatten ++ ['\n']).take q, ?_, ?_⟩
    · unfold topSearch
      rw [splitOnFirst_exact topLit (W ++ ['\n'])
        ('\n' :: (((l1 :: rest).map (fun l => l ++ ['\n'])).flatten ++ ['\n'])) (by decide) hnp]
      have htw : ('\n' :: (((l1 :: rest).map (fun l => l ++ ['\n'])).flatten ++ ['\n'])).takeWhile
          pyIsSpace = ['\n'] := by
        rw [List.takeWhile_cons, if_pos (by decide), hT, List.takeWhile_cons,
          if_neg (by simp [hc1])]
      simp only [Option.map_some']
      rw [htw]
      simp only [List.length_cons, List.length_nil, List.drop_succ_cons, List.drop_zero]
      rw [hq]
    · rw [hsp]

/-- `relTail` reads its input only through the whitespace-stripped
prefix. -/
theorem relTail_congr (s s2 : List Char)
    (h : s.dropWhile pyIsSpace = s2.dropWhile pyIsSpace) :
    relTail s = relTail s2 := by
  unfold relTail
  rw [h]

/-- All characters of a list satisfying a predicate are kept by
`takeWhile`. -/
theorem takeWhile_all (p : Char → Bool) (l : List Char) (h : ∀ c ∈ l, p c = true) :
    l.takeWhile p = l := by
  induction l with
  | nil => rfl
  | cons c r ih =>
    rw [List.takeWhile_cons, h c (by simp), if_pos rfl,
      ih (fun x hx => h x (by simp [hx]))]

/-- `relTail` matches at the separator before the rendered
`deg=`/`R²=` groups. -/
theorem relTail_at_sep (degS r2S : List Char)
    (hdeg : degS ≠ []) (hdigits : ∀ c ∈ degS, pyIsDigit c = true)
    (hr2 : ∀ c ∈ r2S, (pyIsDigit c || c = '.') = true) (hr2ne : r2S ≠ []) :
    relTail (' ' :: (String.toList "deg=" ++
        (degS ++ (' ' :: (String.toList "R²=" ++ r2S))))) = some (degS, r2S) := by
  have e1 : (' ' :: (String.toList "deg=" ++
      (degS ++ (' ' :: (String.toList "R²=" ++ r2S))))).dropWhile pyIsSpace =
      String.toList "deg=" ++ (degS ++ (' ' :: (String.toList "R²=" ++ r2S))) := rfl
  have e3 : (String.toList "deg=" ++ (degS ++ (' ' :: (String.toList "R²=" ++ r2S)))).drop 4 =
      degS ++ (' ' :: (String.toList "R²=" ++ r2S)) := rfl
  have e4 : (degS ++ (' ' :: (String.toList "R²=" ++ r2S))).takeWhile pyIsDigit = degS :=
    takeWhile_append_stop pyIsDigit degS ' ' (String.toList "R²=" ++ r2S) hdigits (by decide)
  have e6 : (' ' :: (String.toList "R²=" ++ r2S)).dropWhile pyIsSpace =
      String.toList "R²=" ++ r2S := rfl
  have e7 : (String.toList "R²=" ++ r2S).drop 3 = r2S := rfl
  have e8 : r2S.takeWhile (fun c => pyIsDigit c || c = '.') = r2S :=
    takeWhile_all _ r2S hr2
  simp only [relTail]
  rw [e1, if_pos (List.isPrefixOf_iff_prefix.mpr (List.prefix_append _ _)), e3, e4,
    if_neg (by simp [List.isEmpty_iff, hdeg]), List.drop_left, e6,
    if_pos (List.isPrefixOf_iff_prefix.mpr (List.prefix_append _ _)), e7, e8,
    if_neg (by simp [List.isEmpty_iff, hr2ne])]

/-- A `deg=` prefix across the separator space must lie entirely in
the region before it. -/
theorem deg_prefix_cases (D2 T : List Char) (hne : D2 ≠ [])
    (h : (String.toList "deg=").isPrefixOf (D2 ++ ' ' :: T) = true) :
    (String.toList "deg=").isPrefixOf D2 = true := by
  rw [List.isPrefixOf_iff_prefix] at h ⊢
  rw [show String.toList "deg=" = 'd' :: 'e' :: 'g' :: '=' :: [] from rfl] at h ⊢
  match D2, hne with
  | [c1], _ =>
    exfalso
    rw [show [c1] ++ ' ' :: T = c1 :: ' ' :: T from rfl] at h
    simp only [List.cons_prefix_cons] at h
    exact absurd h.2.1 (by decide)
  | [c1, c2], _ =>
    exfalso
    rw [show [c1, c2] ++ ' ' :: T = c1 :: c2 :: ' ' :: T from rfl] at h
    simp only [List.cons_prefix_cons] at h
    exact absurd h.2.2.1 (by decide)
  | [c1, c2, c3], _ =>
    exfalso
    rw [show [c1, c2, c3] ++ ' ' :: T = c1 :: c2 :: c3 :: ' ' :: T from rfl] at h
    simp only [List.cons_prefix_cons] at h
    exact absurd h.2.2.2.1 (by decide)
  | c1 :: c2 :: c3 :: c4 :: t, _ =>
    rw [show (c1 :: c2 :: c3 :: c4 :: t) ++ ' ' :: T =
        c1 :: c2 :: c3 :: c4 :: (t ++ ' ' :: T) from rfl] at h
    simp only [List.cons_prefix_cons] at h ⊢
    exact ⟨h.1, h.2.1, h.2.2.1, h.2.2.2.1, by simp⟩

/-- `relTail` cannot fire strictly inside the destination region when
it contains no `deg=` and does not end in whitespace. -/
theorem relTail_none_of_no_deg (D R : List Char) :
    containsSub (String.toList "deg=") D = false →
    (∀ x, D.reverse.head? = some x → pyIsSpace x = false) →
    ∀ i < D.length, relTail ((D ++ ' ' :: (String.toList "deg=" ++ R)).drop i) = none := by
  induction D with
  | nil => intro _ _ i hi; simp at hi
  | cons c D ih =>
    intro hno hlast i hi
    have hno2 : containsSub (String.toList "deg=") D = false := by
      rw [containsSub_cons] at hno
      simp only [Bool.or_eq_false_iff] at hno
      exact hno.2
    have hlast2 : ∀ x, D.reverse.head? = some x → pyIsSpace x = false := by
      intro x hx
      apply hlast x
      cases hrev : D.reverse with
      | nil => rw [hrev] at hx; simp at hx
      | cons y tr =>
        rw [hrev] at hx
        simp only [List.head?_cons, Option.some.injEq] at hx
        rw [List.reverse_cons, hrev]
        simp [hx]
    cases i with
    | succ j =>
      have hj : j < D.length := by
        simp only [List.length_cons] at hi
        omega
      have hres := ih hno2 hlast2 j hj
      simpa using hres
    | zero =>
      rw [List.drop_zero]
      by_cases hsp : pyIsSpace c = true
      · have hDne : D ≠ [] := by
          intro hcon
          subst hcon
          have hx := hlast c (by simp)
          rw [hx] at hsp
          exact absurd hsp (by simp)
        have hcg : relTail ((c :: D) ++ ' ' :: (String.toList "deg=" ++ R)) =
            relTail (D ++ ' ' :: (String.toList "deg=" ++ R)) := by
          apply relTail_congr
          rw [List.cons_append, List.dropWhile_cons, if_pos hsp]
        rw [hcg]
        have h0 := ih hno2 hlast2 0 (List.length_pos.mpr hDne)
        simpa using h0
      · have hspf : pyIsSpace c = false := by
          cases hb : pyIsSpace c with
          | false => rfl
          | true => exact absurd hb hsp
        have hs1 : ((c :: D) ++ ' ' :: (String.toList "deg=" ++ R)).dropWhile pyIsSpace =
            (c :: D) ++ ' ' :: (String.toList "deg=" ++ R) := by
          rw [List.cons_append, List.dropWhile_cons, hspf]
          simp
        have hpre : (String.toList "deg=").isPrefixOf
            ((c :: D) ++ ' ' :: (String.toList "deg=" ++ R)) = false := by
          cases hb : (String.toList "deg=").isPrefixOf
              ((c :: D) ++ ' ' :: (String.toList "deg=" ++ R)) with
          | false => rfl
          | true =>
            exfalso
            have hD2 := deg_prefix_cases (c :: D) (String.toList "deg=" ++ R) (by simp) hb
            have hcs := containsSub_of_isPrefixOf_drop (String.toList "deg=") (c :: D) 0
              (by decide) (by simpa using hD2)
            rw [hcs] at hno
            exact absurd hno (by simp)
        simp only [relTail]
        rw [hs1, hpre]
        simp

/-- The one-step equation of `dstScan` at positive fuel. -/
theorem dstScan_succ (fuel : Nat) (acc s : List Char) :
    dstScan (fuel + 1) acc s =
      match relTail s with
      | some p => some (acc.reverse, p.1, p.2)
      | none =>
        match s with
        | [] => none
        | c :: r => if c = '\n' then none else dstScan fuel (c :: acc) r := rfl

/-- `dstScan` stops as soon as `relTail` matches. -/
theorem dstScan_found (fuel : Nat) (acc s ds rs : List Char)
    (h : relTail s = some (ds, rs)) :
    dstScan (fuel + 1) acc s = some (acc.reverse, ds, rs) := by
  rw [dstScan_succ, h]

/-- `dstScan` consumes one character on a `relTail` failure. -/
theorem dstScan_step (fuel : Nat) (acc : List Char) (c : Char) (r : List Char)
    (hfail : relTail (c :: r) = none) (hc : c ≠ '\n') :
    dstScan (fuel + 1) acc (c :: r) = dstScan fuel (c :: acc) r := by
  rw [dstScan_succ, hfail]
  show (if c = '\n' then none else dstScan fuel (c :: acc) r) = dstScan fuel (c :: acc) r
  rw [if_neg hc]

/-- `dstScan` walks through a region of `relTail` failures and
returns the consumed region as the lazy destination group. -/
theorem dstScan_walk (d : List Char) :
    ∀ (fuel : Nat) (acc Z ds rs : List Char),
      d.length ≤ fuel →
      (∀ c ∈ d, c ≠ '\n') →
      (∀ i < d.length, relTail ((d ++ Z).drop i) = none) →
      relTail Z = some (ds, rs) →
      dstScan (fuel + 1) acc (d ++ Z) = some (acc.reverse ++ d, ds, rs) := by
  induction d with
  | nil =>
    intro fuel acc Z ds rs _ _ _ hZ
    rw [List.nil_append, dstScan_found fuel acc Z ds rs hZ]
    simp
  | cons c d ih =>
    intro fuel acc Z ds rs hfuel hnl hfails hZ
    cases fuel with
    | zero => simp at hfuel
    | succ fuel2 =>
      have hfail0 : relTail (c :: (d ++ Z)) = none := by
        have := hfails 0 (by simp)
        simpa using this
      rw [List.cons_append, dstScan_step (fuel2 + 1) acc c (d ++ Z) hfail0 (hnl c (by simp)),
        ih fuel2 (c :: acc) Z ds rs (by simp only [List.length_cons] at hfuel; omega)
          (fun x hx => hnl x (by simp [hx]))
          (fun i hi => by simpa using hfails (i + 1) (by simp only [List.length_cons]; omega))
          hZ]
      simp

/-- `srcScan` walks the arrow-free source region and matches at the
first arrow when the destination scan succeeds there. -/
theorem srcScan_walk (src : List Char) :
    ∀ (acc T d ds rs : List Char),
      (∀ c ∈ src, c ≠ '\n' ∧ c ≠ '→') →
      dstScan (T.length + 1) [] T = some (d, ds, rs) →
      srcScan acc (src ++ '→' :: T) = some ⟨acc.reverse ++ src, d, ds, rs⟩ := by
  induction src with
  | nil =>
    intro acc T d ds rs _ hd
    rw [List.nil_append]
    unfold srcScan
    rw [if_neg (by decide), if_pos rfl, hd]
    simp
  | cons c src ih =>
    intro acc T d ds rs hc hd
    obtain ⟨hcn, hca⟩ := hc c (by simp)
    rw [List.cons_append]
    unfold srcScan
    rw [if_neg hcn, if_neg hca,
      ih (c :: acc) T d ds rs (fun x hx => hc x (by simp [hx])) hd]
    simp

/-- The relation regex on a rendered relation line recovers the four
rendered groups exactly. -/
theorem relMatch_render (src dst degS r2S : List Char)
    (hsrc : ∀ c ∈ src, c ≠ '\n' ∧ c ≠ '→')
    (hdst_nl : ∀ c ∈ dst, c ≠ '\n')
    (hdst_nodeg : containsSub (String.toList "deg=") dst = false)
    (hdst_trail : ∀ x, dst.reverse.head? = some x → pyIsSpace x = false)
    (hdeg : degS ≠ []) (hdigits : ∀ c ∈ degS, pyIsDigit c = true)
    (hr2 : ∀ c ∈ r2S, (pyIsDigit c || c = '.') = true) (hr2ne : r2S ≠ []) :
    relMatch (src ++ '→' :: (dst ++ (' ' :: (String.toList "deg=" ++
        (degS ++ (' ' :: (String.toList "R²=" ++ r2S))))))) =
      some ⟨src, dst, degS, r2S⟩ := by
  have htail := relTail_at_sep degS r2S hdeg hdigits hr2 hr2ne
  have hdst := dstScan_walk dst
    ((dst ++ (' ' :: (String.toList "deg=" ++ (degS ++ (' ' :: (String.toList "R²=" ++ r2S)))))).length)
    [] (' ' :: (String.toList "deg=" ++ (degS ++ (' ' :: (String.toList "R²=" ++ r2S)))))
    degS r2S (by simp) ?hnl
    (relTail_none_of_no_deg dst (degS ++ (' ' :: (String.toList "R²=" ++ r2S)))
      hdst_nodeg hdst_trail) htail
  · unfold relMatch
    rw [srcScan_walk src [] _ dst degS r2S hsrc (by simpa using hdst)]
    simp
  case hnl => exact hdst_nl

/-- The relation loop on rendered relation lines produces exactly the
converted records, in order. -/
theorem relLoop_render (rels : List RelIn)
    (h : ∀ r ∈ rels, relInOk r ∧ (∀ x, r.dst.reverse.head? = some x → pyIsSpace x = false)) :
    relLoop (rels.map renderRelLine) = .ok (rels.map relVal) := by
  induction rels with
  | nil => rfl
  | cons r rest ih =>
    obtain ⟨hok, htrail⟩ := h r (by simp)
    obtain ⟨h1, h2, h3, h4, h5, h6, h7, h8⟩ := hok
    obtain ⟨q, hq⟩ := Option.isSome_iff_exists.mp h8
    have hr2ne : r.r2S ≠ [] := by
      intro hcon
      rw [hcon] at h8
      exact absurd h8 (by decide)
    have hsrc : ∀ c ∈ r.src, c ≠ '\n' ∧ c ≠ '→' := by
      intro c hc
      obtain ⟨hlb, har⟩ := h2 c hc
      refine ⟨?_, har⟩
      intro hcon
      rw [hcon] at hlb
      exact absurd hlb (by decide)
    have hdnl : ∀ c ∈ r.dst, c ≠ '\n' := by
      intro c hc hcon
      have hlb := h3 c hc
      rw [hcon] at hlb
      exact absurd hlb (by decide)
    have hline : renderRelLine r = r.src ++ '→' :: (r.dst ++ (' ' :: (String.toList "deg=" ++
        (r.degS ++ (' ' :: (String.toList "R²=" ++ r.r2S)))))) := by
      unfold renderRelLine
      simp
    have hconv : relConv ⟨r.src, r.dst, r.degS, r.r2S⟩ =
        .ok ⟨String.mk (pyStrip r.src), String.mk (pyStrip r.dst), natFromDigits r.degS, q⟩ := by
      unfold relConv
      rw [show (RelGroups.mk r.src r.dst r.degS r.r2S).r2S = r.r2S from rfl, hq]
    have hval : relVal r = ⟨String.mk (pyStrip r.src), String.mk (pyStrip r.dst),
        natFromDigits r.degS, q⟩ := by
      unfold relVal
      rw [hq]
      rfl
    rw [List.map_cons, List.map_cons]
    simp only [relLoop]
    rw [hline, relMatch_render r.src r.dst r.degS r.r2S hsrc hdnl h4 htrail h5 h6 h7 hr2ne]
    show (match relConv ⟨r.src, r.dst, r.degS, r.r2S⟩ with
      | Except.error e => (Except.error e : Except PErr (List RelRec))
      | Except.ok rec => (relLoop (rest.map renderRelLine)).map (fun rs => rec :: rs)) =
      Except.ok (relVal r :: rest.map relVal)
    rw [hconv, ih (fun p hp => h p (by simp [hp])), hval]
    rfl

/-- Characters in the printable ASCII range are not line boundaries. -/
theorem pyIsLineBreak_false_of_range (c : Char) (hl : 32 ≤ c.toNat) (hh : c.toNat ≤ 125) :
    pyIsLineBreak c = false := by
  unfold pyIsLineBreak
  simp only [Bool.or_eq_false_iff, decide_eq_false_iff_not]
  refine ⟨⟨⟨⟨⟨⟨⟨⟨⟨?_, ?_⟩, ?_⟩, ?_⟩, ?_⟩, ?_⟩, ?_⟩, ?_⟩, ?_⟩, ?_⟩
  all_goals
    intro k
    subst k
    revert hl hh
    decide

/-- The code-point range of an ASCII digit. -/
theorem digit_toNat (c : Char) (h : pyIsDigit c = true) :
    48 ≤ c.toNat ∧ c.toNat ≤ 57 := by
  unfold pyIsDigit at h
  simp only [Bool.and_eq_true, decide_eq_true_eq] at h
  obtain ⟨ha, hb⟩ := h
  rw [char_le_iff_toNat] at ha hb
  have e1 : ('0').toNat = 48 := by decide
  have e2 : ('9').toNat = 57 := by decide
  omega

/-- A rendered relation line is nonempty, free of line boundaries, and
starts with a non-space character. -/
theorem renderRelLine_facts (r : RelIn) (hok : relInOk r) :
    renderRelLine r ≠ [] ∧ (∀ c ∈ renderRelLine r, pyIsLineBreak c = false) ∧
      (∀ x, (renderRelLine r).head? = some x → pyIsSpace x = false) := by
  obtain ⟨h1, h2, h3, h4, h5, h6, h7, h8⟩ := hok
  have hshape : renderRelLine r = r.src ++ '→' :: (r.dst ++ (' ' :: (String.toList "deg=" ++
      (r.degS ++ (' ' :: (String.toList "R²=" ++ r.r2S)))))) := by
    unfold renderRelLine
    simp
  have hmem : ∀ c ∈ renderRelLine r, pyIsLineBreak c = false := by
    intro c hc
    rw [hshape] at hc
    rcases List.mem_append.mp hc with hc1 | hc1
    · exact (h2 c hc1).1
    · rcases List.mem_cons.mp hc1 with hc2 | hc2
      · subst hc2; decide
      · rcases List.mem_append.mp hc2 with hc3 | hc3
        · exact h3 c hc3
        · rcases List.mem_cons.mp hc3 with hc4 | hc4
          · subst hc4; decide
          · rcases List.mem_append.mp hc4 with hc5 | hc5
            · have hcl : c = 'd' ∨ c = 'e' ∨ c = 'g' ∨ c = '=' := by
                simpa using hc5
              rcases hcl with h | h | h | h <;> (subst h; decide)
            · rcases List.mem_append.mp hc5 with hc6 | hc6
              · obtain ⟨hd1, hd2⟩ := digit_toNat c (h6 c hc6)
                exact pyIsLineBreak_false_of_range c (by omega) (by omega)
              · rcases List.mem_cons.mp hc6 with hc7 | hc7
                · subst hc7; decide
                · rcases List.mem_append.mp hc7 with hc8 | hc8
                  · have hcl : c = 'R' ∨ c = '²' ∨ c = '=' := by simpa using hc8
                    rcases hcl with h | h | h <;> (subst h; decide)
                  · have hcb := h7 c hc8
                    simp only [Bool.or_eq_true, decide_eq_true_eq] at hcb
                    rcases hcb with hd | hd
                    · obtain ⟨hd1, hd2⟩ := digit_toNat c hd
                      exact pyIsLineBreak_false_of_range c (by omega) (by omega)
                    · subst hd; decide
  refine ⟨?_, hmem, ?_⟩
  · rw [hshape]
    intro hcon
    have := congrArg List.length hcon
    simp at this
  · intro x hx
    rw [hshape] at hx
    cases hsrcE : r.src with
    | nil =>
      rw [hsrcE] at hx
      simp only [List.nil_append, List.head?_cons, Option.some.injEq] at hx
      subst hx
      decide
    | cons c t =>
      rw [hsrcE] at hx
      simp only [List.cons_append, List.head?_cons, Option.some.injEq] at hx
      have hxc : c = x := hx
      rw [← hxc]
      rw [hsrcE] at h1
      cases hb : pyIsSpace c with
      | false => rfl
      | true =>
        exfalso
        rw [List.dropWhile_cons, hb] at h1
        simp only [if_true] at h1
        have hle := (List.dropWhile_sublist (l := t) (p := pyIsSpace)).length_le
        have hlen := congrArg List.length h1
        simp only [List.length_cons] at hlen
        omega

/-- Claim C1: on a stdout exactly matching the documented
three-pattern format — a `Best column:` line, a `Reward break-down:`
single-quoted dict-literal line, and a `Top relations:` block of
`src→dst deg=… R²=…` lines terminated by a blank line, as produced by
`render` — `parse` returns the whitespace-stripped best-column string,
the exact reward mapping of the dict literal, and the exact ordered
relation list. -/
theorem parse_render_roundtrip (best : List Char)
    (pairs : List (List Char × List Char)) (rels : List RelIn)
    (hbest1 : '\n' ∉ best) (hbest2 : best.dropWhile pyIsSpace ≠ [])
    (hpairs : ∀ p ∈ pairs, keyOk p.1 = true ∧ valOk p.2 = true ∧
      (decLit p.2).isSome ∧ p.2 ≠ [])
    (hnodup : (pairs.map (fun p => String.mk p.1)).Nodup)
    (hrw : containsSub rewardLit ((bestLit ++ ' ' :: best) ++ ['\n']) = false)
    (htop : containsSub topLit (((bestLit ++ ' ' :: best) ++ '\n' ::
      (rewardLit ++ ' ' :: renderDict pairs)) ++ ['\n']) = false)
    (hrels : ∀ r ∈ rels, relInOk r ∧
      (∀ x, r.dst.reverse.head? = some x → pyIsSpace x = false)) :
    parse (render best pairs rels) =
      .ok (pyStrip best, pairs.map pairVal, rels.map relVal, render best pairs rels) := by
  have hbest : bestStage (render best pairs rels) = some (pyStrip best) := by
    have e1 : render best pairs rels = bestLit ++ (' ' :: best ++ '\n' ::
        ((rewardLit ++ ' ' :: renderDict pairs) ++ '\n' ::
          ((topLit ++ '\n' :: (rels.map (fun r => renderRelLine r ++ ['\n'])).flatten) ++ ['\n']))) := by
      unfold render
      simp
    rw [e1]
    exact bestStage_render best _ hbest1 hbest2
  have hreward : rewardStage (render best pairs rels) = .ok (pairs.map pairVal) := by
    have e2 : render best pairs rels =
        ((bestLit ++ ' ' :: best) ++ ['\n']) ++
          (rewardLit ++ (' ' :: ('{' :: (membersRender pairs ++ ['}'])) ++
            ('\n' :: ((topLit ++ '\n' :: (rels.map (fun r => renderRelLine r ++ ['\n'])).flatten) ++ ['\n'])))) := by
      unfold render renderDict
      simp
    rw [e2]
    exact rewardStage_render best _ pairs hpairs hnodup hrw
  have hlines : ∀ l ∈ rels.map renderRelLine, l ≠ [] ∧
      (∀ c ∈ l, pyIsLineBreak c = false) ∧
      (∀ x, l.head? = some x → pyIsSpace x = false) := by
    intro l hl
    obtain ⟨r, hr, hrl⟩ := List.mem_map.mp hl
    obtain ⟨hok, _⟩ := hrels r hr
    obtain ⟨f1, f2, f3⟩ := renderRelLine_facts r hok
    subst hrl
    exact ⟨f1, f2, f3⟩
  obtain ⟨blk, hblk, hsplit⟩ := topSearch_render
    ((bestLit ++ ' ' :: best) ++ '\n' :: (rewardLit ++ ' ' :: renderDict pairs))
    (rels.map renderRelLine) htop hlines
  have htopR : topSearch (render best pairs rels) = some blk := by
    have e3 : render best pairs rels =
        ((((bestLit ++ ' ' :: best) ++ '\n' :: (rewardLit ++ ' ' :: renderDict pairs)) ++ ['\n']) ++
          (topLit ++ '\n' :: (((rels.map renderRelLine).map (fun l => l ++ ['\n'])).flatten ++ ['\n']))) := by
      unfold render renderDict
      simp only [List.map_map]
      simp only [List.cons_append, List.append_assoc]
      rfl
    rw [e3]
    exact hblk
  unfold parse
  rw [hbest]
  split
  · rename_i heq
    exact absurd heq (by simp)
  · rename_i b heq
    injection heq with hb
    subst hb
    rw [hreward]
    split
    · rename_i e heq2
      exact absurd heq2 (by simp)
    · rename_i reward heq2
      injection heq2 with hrw2
      subst hrw2
      rw [htopR]
      split
      · rename_i heq3
        exact absurd heq3 (by simp)
      · rename_i blk2 heq3
        injection heq3 with hblk2
        subst hblk2
        rw [hsplit, relLoop_render rels hrels]

/-- Witness for the round-trip: a concrete rendered stdout with two
reward entries and one relation line. -/
theorem parse_render_roundtrip_witness :
    ('\n' ∉ String.toList "colA") ∧
    containsSub rewardLit ((bestLit ++ ' ' :: String.toList "colA") ++ ['\n']) = false ∧
    parse (render (String.toList "colA")
        [(String.toList "acc", String.toList "0.91"), (String.toList "mse", String.toList "1")]
        [⟨String.toList "x", String.toList "y", String.toList "2", String.toList "0.87"⟩]) =
      .ok (pyStrip (String.toList "colA"),
        [(String.toList "acc", String.toList "0.91"),
          (String.toList "mse", String.toList "1")].map pairVal,
        [(⟨String.toList "x", String.toList "y", String.toList "2",
          String.toList "0.87"⟩ : RelIn)].map relVal,
        render (String.toList "colA")
          [(String.toList "acc", String.toList "0.91"), (String.toList "mse", String.toList "1")]
          [⟨String.toList "x", String.toList "y", String.toList "2", String.toList "0.87"⟩]) :=
  ⟨by decide, by decide,
    parse_render_roundtrip (String.toList "colA")
      [(String.toList "acc", String.toList "0.91"), (String.toList "mse", String.toList "1")]
      [⟨String.toList "x", String.toList "y", String.toList "2", String.toList "0.87"⟩]
      (by decide) (by decide) (by decide) (by decide) (by decide) (by decide)
      (by
        intro r hr
        simp only [List.mem_singleton] at hr
        subst hr
        refine ⟨?_, ?_⟩
        · unfold relInOk
          decide
        · intro x hx
          simp at hx
          subst hx
          decide)⟩

/-- Claim C10: re-invoking the artifact fetch on the cache the first
invocation produced reuses it unchanged and performs no download. -/
theorem snapshot_download_idempotent (repo : RemoteRepo) (cache : LocalCache) :
    snapshot_download repo (snapshot_download repo cache).1 =
      ((snapshot_download repo cache).1, false) := by
  unfold snapshot_download
  by_cases h : repo.files.all (fun f => decide (f ∈ cache.files)) = true
  · simp [h]
  · simp only [Bool.not_eq_true] at h
    have h2 : repo.files.all
        (fun f => decide (f ∈ ({ files := repo.files } : LocalCache).files)) = true := by
      simp [List.all_eq_true]
    simp [h, h2]

end App
